import Mathlib

set_option maxRecDepth 100000

/-!
Verification of the env-lock core: the AES-256-GCM envelope codec with
failed-attempt rate limiting (src/crypto.js) and the dotenv-style
configuration parser and serializer (src/parser.js).

JavaScript strings are modelled as lists of Unicode scalar values
(List Char); byte buffers as lists of natural numbers below 256; the
process-wide failed-attempt table as an explicit association list threaded
through the operations; the clock (Date.now) as an explicit Int argument.
The platform primitives from node:crypto (AES-256-GCM and SHA-256) are
modelled as concrete deterministic stand-in functions with the same shape:
an authenticated stream cipher built from a keystream plus a tag digest,
and a fixed-width hex digest.  Every repository-owned computation (wire
format assembly and parsing, checksums over the payload string, hex and
UTF-8 codecs, validation order, error messages, rate limiting) follows the
JavaScript source line by line.
-/

namespace EnvLock

/-! ## JavaScript string primitives -/

/-- The WhiteSpace and LineTerminator code points recognised by the
JavaScript trim functions. -/
def jsWhitespace (c : Char) : Bool :=
  let n := c.toNat
  n = 9 || n = 10 || n = 11 || n = 12 || n = 13 || n = 32 || n = 0xa0 ||
  n = 0xfeff || n = 0x1680 || (0x2000 ≤ n && n ≤ 0x200a) || n = 0x2028 ||
  n = 0x2029 || n = 0x202f || n = 0x205f || n = 0x3000

/-- Model of String.prototype.trimEnd. -/
def jsTrimEnd (s : List Char) : List Char :=
  ((s.reverse).dropWhile jsWhitespace).reverse

/-- Model of String.prototype.trim. -/
def jsTrim (s : List Char) : List Char :=
  jsTrimEnd (s.dropWhile jsWhitespace)

/-- Model of String.prototype.substring: clamps both indices to the string
and swaps them when the start exceeds the end. -/
def jsSubstring (s : List Char) (a b : Nat) : List Char :=
  (s.take (max a b)).drop (min a b)

/-- Model of String.prototype.split with a one-character separator. -/
def splitChar (sep : Char) : List Char → List (List Char)
  | [] => [[]]
  | c :: cs =>
    match splitChar sep cs with
    | [] => [[c]]
    | h :: t => if c = sep then [] :: h :: t else (c :: h) :: t

/-- Model of String.prototype.startsWith. -/
def listStartsWith : List Char → List Char → Bool
  | [], _ => true
  | _ :: _, [] => false
  | p :: ps, c :: cs => p = c && listStartsWith ps cs

/-- Model of Array.prototype.join with a one-character separator. -/
def joinChar (sep : Char) : List (List Char) → List Char
  | [] => []
  | [l] => l
  | l :: ls => l ++ sep :: joinChar sep ls

/-! ## Hex codec (Buffer toString hex / Buffer.from hex) -/

/-- Numeric value of one hexadecimal digit, case insensitive. -/
def hexDigitVal (c : Char) : Option Nat :=
  let n := c.toNat
  if 48 ≤ n ∧ n ≤ 57 then some (n - 48)
  else if 97 ≤ n ∧ n ≤ 102 then some (n - 97 + 10)
  else if 65 ≤ n ∧ n ≤ 70 then some (n - 65 + 10)
  else none

/-- Lowercase hexadecimal digit for a value below 16. -/
def hexDigitChar (n : Nat) : Char :=
  if n < 10 then Char.ofNat (48 + n) else Char.ofNat (97 + n - 10)

/-- Two lowercase hexadecimal digits for one byte. -/
def byteToHex (b : Nat) : List Char :=
  [hexDigitChar (b / 16 % 16), hexDigitChar (b % 16)]

/-- Model of Buffer.prototype.toString with the hex encoding. -/
def bytesToHex : List Nat → List Char
  | [] => []
  | b :: bs => byteToHex b ++ bytesToHex bs

/-- Model of Buffer.from with the hex encoding: decodes digit pairs from
the left and stops at the first invalid pair or dangling digit. -/
def hexDecode : List Char → List Nat
  | c1 :: c2 :: rest =>
    match hexDigitVal c1, hexDigitVal c2 with
    | some h, some l => (16 * h + l) :: hexDecode rest
    | _, _ => []
  | _ => []

/-! ## UTF-8 codec (Buffer.byteLength / toString utf8) -/

/-- UTF-8 encoding of one Unicode scalar value. -/
def utf8EncodeChar (c : Char) : List Nat :=
  if c.toNat < 0x80 then [c.toNat]
  else if c.toNat < 0x800 then [0xc0 + c.toNat / 64, 0x80 + c.toNat % 64]
  else if c.toNat < 0x10000 then
    [0xe0 + c.toNat / 4096, 0x80 + c.toNat / 64 % 64, 0x80 + c.toNat % 64]
  else
    [0xf0 + c.toNat / 262144, 0x80 + c.toNat / 4096 % 64,
     0x80 + c.toNat / 64 % 64, 0x80 + c.toNat % 64]

/-- UTF-8 encoding of a string, as Buffer.from with the utf8 encoding. -/
def utf8Encode : List Char → List Nat
  | [] => []
  | c :: s => utf8EncodeChar c ++ utf8Encode s

/-- Model of Buffer.byteLength with the utf8 encoding. -/
def utf8Len (s : List Char) : Nat := (utf8Encode s).length

/-- True for UTF-8 continuation bytes. -/
def isUtf8Cont (b : Nat) : Bool := 0x80 ≤ b && b < 0xc0

/-- The U+FFFD replacement character emitted by lossy UTF-8 decoding. -/
def replChar : Char := Char.ofNat 0xfffd

/-- The scalar value encoded by a two-byte UTF-8 sequence. -/
def utf8Scalar2 (b0 b1 : Nat) : Nat := (b0 - 0xc0) * 64 + (b1 - 0x80)

/-- The scalar value encoded by a three-byte UTF-8 sequence. -/
def utf8Scalar3 (b0 b1 b2 : Nat) : Nat :=
  (b0 - 0xe0) * 4096 + (b1 - 0x80) * 64 + (b2 - 0x80)

/-- The scalar value encoded by a four-byte UTF-8 sequence. -/
def utf8Scalar4 (b0 b1 b2 b3 : Nat) : Nat :=
  (b0 - 0xf0) * 262144 + (b1 - 0x80) * 4096 + (b2 - 0x80) * 64 + (b3 - 0x80)

/-- The character decoded from a two-byte sequence whose lead byte is
valid, or the replacement character. -/
def utf8Char2 (b0 b1 : Nat) : Char :=
  if isUtf8Cont b1 then Char.ofNat (utf8Scalar2 b0 b1) else replChar

/-- The character decoded from a three-byte sequence whose lead byte is
valid, or the replacement character (also for surrogate values). -/
def utf8Char3 (b0 b1 b2 : Nat) : Char :=
  if isUtf8Cont b1 ∧ isUtf8Cont b2 then
    if utf8Scalar3 b0 b1 b2 < 0xd800 ∨ 0xe000 ≤ utf8Scalar3 b0 b1 b2 then
      Char.ofNat (utf8Scalar3 b0 b1 b2)
    else replChar
  else replChar

/-- The character decoded from a four-byte sequence whose lead byte is
valid, or the replacement character (also for out-of-range values). -/
def utf8Char4 (b0 b1 b2 b3 : Nat) : Char :=
  if isUtf8Cont b1 ∧ isUtf8Cont b2 ∧ isUtf8Cont b3 then
    if utf8Scalar4 b0 b1 b2 b3 < 0x110000 then
      Char.ofNat (utf8Scalar4 b0 b1 b2 b3)
    else replChar
  else replChar

/-- Model of Buffer.prototype.toString with the utf8 encoding: total and
lossy, decoding well-formed sequences exactly and emitting the replacement
character on malformed input (resynchronization after a malformed sequence
is approximate; no claim depends on it, since decryption only ever decodes
byte strings produced by the encoder). -/
def utf8Decode : List Nat → List Char
  | [] => []
  | [b0] => if b0 < 0x80 then [Char.ofNat b0] else [replChar]
  | [b0, b1] =>
    if b0 < 0x80 then Char.ofNat b0 :: utf8Decode [b1]
    else if 0xc0 ≤ b0 ∧ b0 < 0xe0 then [utf8Char2 b0 b1]
    else if 0xe0 ≤ b0 ∧ b0 < 0xf8 then [replChar]
    else replChar :: utf8Decode [b1]
  | [b0, b1, b2] =>
    if b0 < 0x80 then Char.ofNat b0 :: utf8Decode [b1, b2]
    else if 0xc0 ≤ b0 ∧ b0 < 0xe0 then utf8Char2 b0 b1 :: utf8Decode [b2]
    else if 0xe0 ≤ b0 ∧ b0 < 0xf0 then [utf8Char3 b0 b1 b2]
    else if 0xf0 ≤ b0 ∧ b0 < 0xf8 then [replChar]
    else replChar :: utf8Decode [b1, b2]
  | b0 :: b1 :: b2 :: b3 :: rest =>
    if b0 < 0x80 then Char.ofNat b0 :: utf8Decode (b1 :: b2 :: b3 :: rest)
    else if 0xc0 ≤ b0 ∧ b0 < 0xe0 then
      utf8Char2 b0 b1 :: utf8Decode (b2 :: b3 :: rest)
    else if 0xe0 ≤ b0 ∧ b0 < 0xf0 then
      utf8Char3 b0 b1 b2 :: utf8Decode (b3 :: rest)
    else if 0xf0 ≤ b0 ∧ b0 < 0xf8 then
      utf8Char4 b0 b1 b2 b3 :: utf8Decode rest
    else replChar :: utf8Decode (b1 :: b2 :: b3 :: rest)

/-! ## Decimal rendering (template literal interpolation of numbers) -/

/-- Decimal digit character. -/
def decDigitChar (n : Nat) : Char := Char.ofNat (48 + n % 10)

/-- Fuel-driven decimal digit accumulator; the fuel is always sufficient
at the call site. -/
def natToDigitsAux : Nat → Nat → List Char → List Char
  | 0, _, acc => acc
  | fuel + 1, n, acc =>
    if n < 10 then decDigitChar n :: acc
    else natToDigitsAux fuel (n / 10) (decDigitChar n :: acc)

/-- Decimal rendering of a natural number. -/
def natToString (n : Nat) : List Char := natToDigitsAux (n + 1) n []

/-- Decimal rendering of an integer, as JavaScript number-to-string
interpolation for integral values. -/
def intToString (i : Int) : List Char :=
  if i < 0 then '-' :: natToString (-i).toNat else natToString i.toNat

/-! ## Platform primitive models (node:crypto SHA-256 and AES-256-GCM)

The claims use only the shape of these primitives: SHA-256 is a
deterministic function of the input bytes producing a 32-byte digest, and
AES-256-GCM is an authenticated stream cipher whose decryption exactly
inverts encryption under the same key and IV and whose tag check rejects
any other tag.  Concrete mixing functions stand in for the actual
permutations. -/

/-- One absorption step of the stand-in digest state. -/
def mixStep (st b : Nat) : Nat := (st * 131 + b + 1) % (2 ^ 256)

/-- Stand-in for the SHA-256 compression: folds the input bytes into a
256-bit accumulator. -/
def sha256Nat (bs : List Nat) : Nat := bs.foldl mixStep 0x6a09e667

/-- The 32 digest bytes of the stand-in SHA-256, little-endian. -/
def sha256Bytes (bs : List Nat) : List Nat :=
  (List.range 32).map fun i => sha256Nat bs / 256 ^ i % 256

/-- Model of createHash sha256 on a string, with hex digest: always 64
lowercase hexadecimal characters. -/
def sha256Hex (s : List Char) : List Char := bytesToHex (sha256Bytes (utf8Encode s))

/-- Stand-in for the AES-256-CTR keystream byte at position i under the
given key and IV. -/
def keystreamByte (key iv : List Nat) (i : Nat) : Nat :=
  sha256Nat (key ++ iv ++ [i % 256, i / 256 % 256, i / 65536 % 256]) % 256

/-- XOR of a byte list with a keystream starting at position i. -/
def xorStream (ks : Nat → Nat) : Nat → List Nat → List Nat
  | _, [] => []
  | i, b :: bs => (b ^^^ ks i) :: xorStream ks (i + 1) bs

/-- Stand-in for the 16-byte GCM authentication tag over key, IV and
ciphertext. -/
def gcmTag (key iv ct : List Nat) : List Nat :=
  (List.range 16).map fun i =>
    sha256Nat (key ++ [255] ++ iv ++ [254] ++ ct) / 256 ^ i % 256

/-- GCM encryption body: ciphertext bytes of the plaintext bytes. -/
def gcmEncrypt (key iv pt : List Nat) : List Nat :=
  xorStream (keystreamByte key iv) 0 pt

/-- GCM decryption body: checks the tag, then inverts the keystream;
returns none exactly when the decipher would raise an authentication
error. -/
def gcmDecrypt (key iv tag ct : List Nat) : Option (List Nat) :=
  if tag = gcmTag key iv ct then some (xorStream (keystreamByte key iv) 0 ct)
  else none

/-! ## Crypto module state and constants (src/crypto.js) -/

/-- IV_LENGTH: 12 bytes for GCM mode. -/
def IV_LENGTH : Nat := 12

/-- KEY_LENGTH: 32 bytes for AES-256. -/
def KEY_LENGTH : Nat := 32

/-- AUTH_TAG_LENGTH: 16 bytes for the GCM auth tag. -/
def AUTH_TAG_LENGTH : Nat := 16

/-- MAX_INPUT_SIZE: 10 MiB input ceiling. -/
def MAX_INPUT_SIZE : Nat := 10 * 1024 * 1024

/-- RATE_LIMIT_WINDOW: one minute, in milliseconds. -/
def RATE_LIMIT_WINDOW : Int := 60000

/-- MAX_FAILED_ATTEMPTS: failures per window before rate limiting. -/
def MAX_FAILED_ATTEMPTS : Nat := 10

/-- CLEANUP_INTERVAL: five minutes, in milliseconds. -/
def CLEANUP_INTERVAL : Int := 300000

/-- One value of the failedAttempts map: a failure count and the window
start timestamp. -/
structure AttemptRecord where
  count : Nat
  firstAttempt : Int
  deriving DecidableEq, Repr

/-- The module-level mutable state of src/crypto.js: the failedAttempts
map (keyed by the hex SHA-256 of the attempted key) and the lastCleanup
timestamp. -/
structure CryptoState where
  failedAttempts : List (List Char × AttemptRecord)
  lastCleanup : Int
  deriving DecidableEq, Repr

/-- Map.prototype.get on the association-list model. -/
def mapGet (m : List (List Char × AttemptRecord)) (k : List Char) :
    Option AttemptRecord :=
  match m with
  | [] => none
  | (k0, v0) :: rest => if k0 = k then some v0 else mapGet rest k

/-- Map.prototype.set on the association-list model: replaces in place or
appends. -/
def mapSet (m : List (List Char × AttemptRecord)) (k : List Char)
    (v : AttemptRecord) : List (List Char × AttemptRecord) :=
  match m with
  | [] => [(k, v)]
  | (k0, v0) :: rest =>
    if k0 = k then (k0, v) :: rest else (k0, v0) :: mapSet rest k v

/-- Map.prototype.delete on the association-list model. -/
def mapDelete (m : List (List Char × AttemptRecord)) (k : List Char) :
    List (List Char × AttemptRecord) :=
  m.filter fun e => e.1 ≠ k

/-- isValidString: a string value, nonempty unless allowEmpty; in this
embedding values are always strings, so only the emptiness check remains. -/
def isValidString (s : List Char) (allowEmpty : Bool) : Bool :=
  allowEmpty || !s.isEmpty

/-- clearRateLimit: removes the tracker entry for a key hash. -/
def clearRateLimit (st : CryptoState) (keyHash : List Char) : CryptoState :=
  { st with failedAttempts := mapDelete st.failedAttempts keyHash }

/-- cleanupFailedAttempts: drops entries whose window start lies before
now minus RATE_LIMIT_WINDOW and stamps lastCleanup. -/
def cleanupFailedAttempts (now : Int) (st : CryptoState) : CryptoState :=
  { failedAttempts :=
      st.failedAttempts.filter fun e => ¬ (e.2.firstAttempt < now - RATE_LIMIT_WINDOW)
    lastCleanup := now }

/-- isRateLimited: opportunistic cleanup, then the per-key-hash window
check; resets an expired window to a zero count.  Returns the verdict and
the updated module state. -/
def isRateLimited (now : Int) (keyHex : List Char) (st : CryptoState) :
    Bool × CryptoState :=
  let st1 := if now - st.lastCleanup > CLEANUP_INTERVAL
             then cleanupFailedAttempts now st else st
  let keyHash := sha256Hex keyHex
  let attempts := (mapGet st1.failedAttempts keyHash).getD ⟨0, now⟩
  if now - attempts.firstAttempt > RATE_LIMIT_WINDOW then
    (false, { st1 with failedAttempts := mapSet st1.failedAttempts keyHash ⟨0, now⟩ })
  else if attempts.count ≥ MAX_FAILED_ATTEMPTS then (true, st1)
  else (false, st1)

/-- recordFailedAttempt: starts a new window with count 1 when the
previous window expired, otherwise increments the count. -/
def recordFailedAttempt (now : Int) (keyHex : List Char) (st : CryptoState) :
    CryptoState :=
  let keyHash := sha256Hex keyHex
  let attempts := (mapGet st.failedAttempts keyHash).getD ⟨0, now⟩
  if now - attempts.firstAttempt > RATE_LIMIT_WINDOW then
    { st with failedAttempts := mapSet st.failedAttempts keyHash ⟨1, now⟩ }
  else
    { st with failedAttempts :=
        mapSet st.failedAttempts keyHash ⟨attempts.count + 1, attempts.firstAttempt⟩ }

/-! ## Error messages (the JavaScript code distinguishes failures only by
the Error message text) -/

/-- Message thrown for a non-string or empty encryption input. -/
def msgTextMustBeString : List Char := String.data "Text to encrypt must be a string"

/-- Message thrown when the encryption input exceeds MAX_INPUT_SIZE. -/
def msgEncTooLarge (got : Nat) : List Char :=
  String.data "Input too large: maximum size is 10485760 bytes (10.0MB), got "
    ++ natToString got ++ String.data " bytes"

/-- Message thrown for an empty encryption key. -/
def msgEncKeyEmpty : List Char :=
  String.data "Encryption key must be a non-empty string"

/-- Message thrown when the key does not decode to 32 bytes. -/
def msgBadKeyLen (got : Nat) : List Char :=
  String.data "Key must be 32 bytes (64 hex characters), got "
    ++ natToString got ++ String.data " bytes"

/-- Message thrown for an empty cipher text. -/
def msgCipherEmpty : List Char :=
  String.data "Cipher text must be a non-empty string"

/-- Message thrown when the cipher text exceeds twice MAX_INPUT_SIZE. -/
def msgDecTooLarge (got : Nat) : List Char :=
  String.data "Input too large: maximum size is 20971520 bytes, got "
    ++ natToString got ++ String.data " bytes"

/-- Message thrown for an empty decryption key. -/
def msgDecKeyEmpty : List Char :=
  String.data "Decryption key must be a non-empty string"

/-- Message thrown on the rate-limit short circuit. -/
def msgRateLimited : List Char :=
  String.data "Too many failed decryption attempts. Please wait before trying again."

/-- The single uniform message of every decryption-path failure. -/
def msgInvalidOrCorrupted : List Char :=
  String.data "Decryption failed: Invalid or corrupted data"

/-! ## encrypt and decrypt (src/crypto.js) -/

/-- encrypt: validation, fresh-IV authenticated encryption, hex payload
assembly and the v1 envelope wrapper.  The clock value and the random IV
bytes are explicit arguments; the function raises by returning the thrown
message. -/
def encrypt (now : Int) (iv : List Nat) (text keyHex : List Char) :
    Except (List Char) (List Char) :=
  if ¬ isValidString text true then .error msgTextMustBeString
  else
    let textSize := utf8Len text
    if textSize > MAX_INPUT_SIZE then .error (msgEncTooLarge textSize)
    else if ¬ isValidString keyHex false then .error msgEncKeyEmpty
    else
      let keyBuffer := hexDecode keyHex
      if keyBuffer.length ≠ KEY_LENGTH then .error (msgBadKeyLen keyBuffer.length)
      else
        let encrypted := bytesToHex (gcmEncrypt keyBuffer iv (utf8Encode text))
        let authTag := gcmTag keyBuffer iv (gcmEncrypt keyBuffer iv (utf8Encode text))
        let encryptedPayload :=
          bytesToHex iv ++ (':' :: (bytesToHex authTag ++ (':' :: encrypted)))
        let checksum := sha256Hex encryptedPayload
        .ok (String.data "v1|" ++ (intToString now ++ ('|' :: (checksum ++
             ('|' :: encryptedPayload)))))

/-- The payload-parsing half of the decrypt try block: split on colon into
exactly three fields, hex-decode them, check the iv and tag lengths, and
run the authenticated decipher.  Returns none exactly where the JavaScript
throws. -/
def decryptPayload (encryptedPayload : List Char) (keyBuffer : List Nat) :
    Option (List Char) :=
  match splitChar ':' encryptedPayload with
  | [ivHex, authTagHex, encryptedDataHex] =>
    let iv := hexDecode ivHex
    let authTag := hexDecode authTagHex
    let encryptedData := hexDecode encryptedDataHex
    if iv.length ≠ IV_LENGTH then none
    else if authTag.length ≠ AUTH_TAG_LENGTH then none
    else
      match gcmDecrypt keyBuffer iv authTag encryptedData with
      | none => none
      | some pt => some (utf8Decode pt)
  | _ => none

/-- The try block of decrypt: v1-or-legacy format detection and checksum
verification, then the common payload parsing.  A string is treated as
versioned exactly when it starts with the version tag followed by the
pipe; otherwise the whole string is the legacy payload.  Returns none
exactly when the JavaScript try block throws (every such throw is caught
and replaced by the uniform message). -/
def decryptTry (cipherText : List Char) (keyBuffer : List Nat) :
    Option (List Char) :=
  if listStartsWith (String.data "v1|") cipherText then
    match splitChar '|' cipherText with
    | [_version, _timestamp, expectedChecksum, payload] =>
      if sha256Hex payload = expectedChecksum then
        decryptPayload payload keyBuffer
      else none
    | _ => none
  else decryptPayload cipherText keyBuffer

/-- decrypt: input validation, the rate-limit gate, key validation, then
the try block; a try-block failure records a failed attempt and raises the
uniform message.  Returns the result together with the updated module
state. -/
def decrypt (now : Int) (cipherText keyHex : List Char) (st : CryptoState) :
    Except (List Char) (List Char) × CryptoState :=
  if ¬ isValidString cipherText false then (.error msgCipherEmpty, st)
  else
    let cipherSize := utf8Len cipherText
    if cipherSize > MAX_INPUT_SIZE * 2 then (.error (msgDecTooLarge cipherSize), st)
    else if ¬ isValidString keyHex false then (.error msgDecKeyEmpty, st)
    else
      match isRateLimited now keyHex st with
      | (true, st1) => (.error msgRateLimited, st1)
      | (false, st1) =>
        let keyBuffer := hexDecode keyHex
        if keyBuffer.length ≠ KEY_LENGTH then
          (.error (msgBadKeyLen keyBuffer.length), st1)
        else
          match decryptTry cipherText keyBuffer with
          | some plaintext => (.ok plaintext, st1)
          | none => (.error msgInvalidOrCorrupted, recordFailedAttempt now keyHex st1)

/-! ## Config parser and serializer (src/parser.js) -/

/-- Model of String.prototype.indexOf for a one-character needle. -/
def indexOfChar (l : List Char) (c : Char) : Option Nat :=
  match l with
  | [] => none
  | x :: rest => if x = c then some 0 else (indexOfChar rest c).map (· + 1)

/-- The null character used as the escaped-backslash placeholder. -/
def nulChar : Char := Char.ofNat 0

/-- One global regex replace of a fixed two-character pattern by a single
character, scanning left to right without rescanning replaced output. -/
def replacePair (a b out : Char) : List Char → List Char
  | x :: y :: rest =>
    if x = a ∧ y = b then out :: replacePair a b out rest
    else x :: replacePair a b out (y :: rest)
  | l => l

/-- One global regex replace of a fixed single character by a fixed
string. -/
def replaceCharBy (a : Char) (out : List Char) : List Char → List Char
  | [] => []
  | c :: rest => (if c = a then out else [c]) ++ replaceCharBy a out rest

/-- unescapeValue: the five sequential replaces of the source, using the
null-byte placeholder so escaped backslashes are not re-interpreted. -/
def unescapeValue (v : List Char) : List Char :=
  replaceCharBy nulChar ['\\']
    (replacePair '\\' '"' '"'
      (replacePair '\\' 't' '\t'
        (replacePair '\\' 'r' '\r'
          (replacePair '\\' 'n' '\n'
            (replacePair '\\' '\\' nulChar v)))))

/-- In-place overwrite of an existing entry, or an append. -/
def assocSet : List (List Char × List Char) → List Char → List Char →
    List (List Char × List Char)
  | [], k, v => [(k, v)]
  | (k0, v0) :: rest, k, v =>
    if k0 = k then (k0, v) :: rest else (k0, v0) :: assocSet rest k v

/-- Plain-object bracket assignment result[key] = value for a string
value: a no-op when the key is the string proto accessor name, since the
inherited prototype setter ignores non-object values and creates no own
property; otherwise an in-place overwrite or an append. -/
def jsObjSet (m : List (List Char × List Char)) (k v : List Char) :
    List (List Char × List Char) :=
  if k = String.data "__proto__" then m else assocSet m k v

/-- The parser loop position: scanning fresh lines, or accumulating a
multi-line double-quoted value for a key. -/
inductive PMode
  | normal
  | multi (key : List Char) (acc : List Char)
  deriving DecidableEq, Repr

/-- One iteration of the outer parser loop on a raw line: trimming,
comment and blank skipping, key/value extraction, quote handling, and
entry assignment; may enter multi-line accumulation. -/
def processLine (m : List (List Char × List Char)) (rawLine : List Char) :
    PMode × List (List Char × List Char) :=
  let line := jsTrim rawLine
  if line = [] then (.normal, m)
  else if listStartsWith ['#'] line then (.normal, m)
  else
    match indexOfChar line '=' with
    | none => (.normal, m)
    | some eq =>
      let key := jsTrim (jsSubstring line 0 eq)
      let value := jsTrim (jsSubstring line (eq + 1) line.length)
      if key = [] then (.normal, m)
      else
        match value with
        | [] => (.normal, jsObjSet m key value)
        | c :: _ =>
          if c = '\'' ∧ value.getLast? = some '\'' then
            (.normal, jsObjSet m key (jsSubstring value 1 (value.length - 1)))
          else if c = '"' then
            if value.getLast? = some '"' ∧ value.length > 1 then
              (.normal,
               jsObjSet m key
                 (unescapeValue (jsSubstring value 1 (value.length - 1))))
            else (.multi key (jsSubstring value 1 value.length), m)
          else
            match indexOfChar value '#' with
            | none => (.normal, jsObjSet m key value)
            | some ci =>
              (.normal, jsObjSet m key (jsTrim (jsSubstring value 0 ci)))

/-- One iteration of the inner multi-line loop: a line whose
trailing-whitespace-stripped form ends in a double quote closes the value
(contributing everything before the quote); any other line is appended
raw. -/
def multiLineStep (key acc : List Char) (m : List (List Char × List Char))
    (rawLine : List Char) : PMode × List (List Char × List Char) :=
  let t := jsTrimEnd rawLine
  if t.getLast? = some '"' then
    (.normal, jsObjSet m key (unescapeValue (acc ++ '\n' :: t.dropLast)))
  else (.multi key (acc ++ '\n' :: rawLine), m)

/-- One step of the whole parser on one raw line. -/
def parseStep (s : PMode × List (List Char × List Char))
    (rawLine : List Char) : PMode × List (List Char × List Char) :=
  match s with
  | (.normal, m) => processLine m rawLine
  | (.multi k acc, m) => multiLineStep k acc m rawLine

/-- parse: split on newline and run the line loop; when end of input is
reached inside an unterminated multi-line value, the accumulated text is
assigned to the key with no error or warning. -/
def parse (content : List Char) : List (List Char × List Char) :=
  if content = [] then []
  else
    match (splitChar '\n' content).foldl parseStep (.normal, []) with
    | (.multi k acc, m) => jsObjSet m k (unescapeValue acc)
    | (.normal, m) => m

/-- The quoting trigger of stringify: newline, carriage return, tab,
double quote, backslash, hash or space. -/
def needsQuotes (v : List Char) : Bool :=
  v.contains '\n' || v.contains '\r' || v.contains '\t' || v.contains '"' ||
  v.contains '\\' || v.contains '#' || v.contains ' '

/-- The five sequential escape replaces of stringify.  Each pass replaces
a single character, and no inserted character is a target of a later pass
next to a target context, so the passes compose exactly as in the
source. -/
def escapeValue (v : List Char) : List Char :=
  replaceCharBy '\t' ['\\', 't']
    (replaceCharBy '\r' ['\\', 'r']
      (replaceCharBy '\n' ['\\', 'n']
        (replaceCharBy '"' ['\\', '"']
          (replaceCharBy '\\' ['\\', '\\'] v))))

/-- The serialized line for one entry. -/
def stringifyEntry (k v : List Char) : List Char :=
  if needsQuotes v then k ++ '=' :: '"' :: (escapeValue v ++ ['"'])
  else k ++ '=' :: v

/-- The emitted lines of stringify, skipping empty keys (the only
non-string-key case expressible in this embedding). -/
def stringifyLines : List (List Char × List Char) → List (List Char)
  | [] => []
  | (k, v) :: rest =>
    if k = [] then stringifyLines rest
    else stringifyEntry k v :: stringifyLines rest

/-- stringify: one line per entry, joined by newline. -/
def stringify (m : List (List Char × List Char)) : List Char :=
  joinChar '\n' (stringifyLines m)

/-! ## Lemmas: hex codec -/

/-- A character is a lowercase hexadecimal digit. -/
def isHexChar (c : Char) : Bool :=
  (48 ≤ c.toNat && c.toNat ≤ 57) || (97 ≤ c.toNat && c.toNat ≤ 102)

theorem hexDigitChar_isHex {n : Nat} (h : n < 16) :
    isHexChar (hexDigitChar n) = true := by
  interval_cases n <;> decide

theorem hexDigitVal_hexDigitChar {n : Nat} (h : n < 16) :
    hexDigitVal (hexDigitChar n) = some n := by
  interval_cases n <;> decide

theorem byteToHex_length (b : Nat) : (byteToHex b).length = 2 := rfl

theorem bytesToHex_length (bs : List Nat) :
    (bytesToHex bs).length = 2 * bs.length := by
  induction bs with
  | nil => rfl
  | cons b bs ih => simp [bytesToHex, byteToHex, ih]; ring

theorem bytesToHex_append (a b : List Nat) :
    bytesToHex (a ++ b) = bytesToHex a ++ bytesToHex b := by
  induction a with
  | nil => rfl
  | cons x a ih => simp [bytesToHex, ih]

theorem bytesToHex_isHex (bs : List Nat) :
    ∀ c ∈ bytesToHex bs, isHexChar c = true := by
  induction bs with
  | nil => simp [bytesToHex]
  | cons b bs ih =>
    intro c hc
    simp only [bytesToHex, byteToHex, List.mem_append, List.mem_cons,
      List.mem_singleton] at hc
    rcases hc with (rfl | rfl | h) | h
    · exact hexDigitChar_isHex (Nat.mod_lt _ (by omega))
    · exact hexDigitChar_isHex (Nat.mod_lt _ (by omega))
    · cases h
    · exact ih c h

theorem hexDecode_bytesToHex {bs : List Nat} (h : ∀ b ∈ bs, b < 256) :
    hexDecode (bytesToHex bs) = bs := by
  induction bs with
  | nil => rfl
  | cons b bs ih =>
    have hb : b < 256 := h b (by simp)
    have h1 : b / 16 < 16 := by omega
    have h2 : b % 16 < 16 := by omega
    have hd1 := hexDigitVal_hexDigitChar h1
    have hd2 := hexDigitVal_hexDigitChar h2
    have : b / 16 % 16 = b / 16 := Nat.mod_eq_of_lt h1
    simp only [bytesToHex, byteToHex, this, List.cons_append, List.nil_append,
      hexDecode, hd1, hd2]
    show (16 * (b / 16) + b % 16) :: hexDecode (bytesToHex bs) = b :: bs
    rw [ih (fun x hx => h x (by simp [hx]))]
    congr 1
    omega

/-- Hex digits are ASCII and distinct from the separators and markers the
wire format and the parser care about. -/
theorem isHexChar_facts {c : Char} (h : isHexChar c = true) :
    c.toNat < 0x80 ∧ c ≠ '|' ∧ c ≠ ':' ∧ c ≠ '\n' := by
  simp only [isHexChar, Bool.or_eq_true, Bool.and_eq_true, decide_eq_true_eq] at h
  refine ⟨by omega, ?_, ?_, ?_⟩ <;> (rintro rfl; revert h; decide)

/-! ## Lemmas: splitChar and joinChar -/

theorem splitChar_no_sep {sep : Char} {l : List Char}
    (h : sep ∉ l) : splitChar sep l = [l] := by
  induction l with
  | nil => rfl
  | cons c cs ih =>
    have hc : c ≠ sep := fun hcc => h (by simp [hcc])
    have := ih (fun hm => h (by simp [hm]))
    simp only [splitChar, this, hc, if_false, reduceIte]

theorem splitChar_ne_nil (sep : Char) (l : List Char) :
    splitChar sep l ≠ [] := by
  cases l with
  | nil => simp [splitChar]
  | cons c cs =>
    simp only [splitChar]
    cases splitChar sep cs with
    | nil => simp
    | cons h t =>
      split
      · simp
      · split <;> simp

theorem splitChar_append_sep {sep : Char} {a b : List Char}
    (h : sep ∉ a) : splitChar sep (a ++ sep :: b) = a :: splitChar sep b := by
  induction a with
  | nil =>
    simp only [List.nil_append, splitChar]
    cases hs : splitChar sep b with
    | nil => exact absurd hs (splitChar_ne_nil sep b)
    | cons x t => simp
  | cons c cs ih =>
    have hc : c ≠ sep := fun hcc => h (by simp [hcc])
    have hmid := ih (fun hm => h (by simp [hm]))
    simp only [List.cons_append, splitChar, List.append_eq] at hmid ⊢
    rw [hmid]
    simp [hc]

theorem joinChar_cons (sep : Char) (l : List Char) (ls : List (List Char))
    (h : ls ≠ []) : joinChar sep (l :: ls) = l ++ sep :: joinChar sep ls := by
  cases ls with
  | nil => exact absurd rfl h
  | cons x xs => rfl

/-! ## Lemmas: UTF-8 round trip -/

theorem charValidNat (c : Char) :
    c.toNat < 0xd800 ∨ (0xdfff < c.toNat ∧ c.toNat < 0x110000) := c.valid

theorem utf8Decode_step1 {b0 : Nat} (h : b0 < 0x80) (rest : List Nat) :
    utf8Decode (b0 :: rest) = Char.ofNat b0 :: utf8Decode rest := by
  match rest with
  | [] => simp only [utf8Decode]; rw [if_pos h]
  | [b1] => simp only [utf8Decode]; rw [if_pos h]
  | [b1, b2] => simp only [utf8Decode]; rw [if_pos h]
  | b1 :: b2 :: b3 :: r => simp only [utf8Decode]; rw [if_pos h]

theorem utf8Decode_step2 {b0 b1 : Nat} (h0 : 0xc0 ≤ b0 ∧ b0 < 0xe0)
    (h1 : isUtf8Cont b1 = true) (rest : List Nat) :
    utf8Decode (b0 :: b1 :: rest) =
      Char.ofNat (utf8Scalar2 b0 b1) :: utf8Decode rest := by
  match rest with
  | [] =>
    simp only [utf8Decode, utf8Char2]
    rw [if_neg (by omega), if_pos h0, if_pos h1]
  | [b2] =>
    simp only [utf8Decode, utf8Char2]
    rw [if_neg (by omega), if_pos h0, if_pos h1]
  | b2 :: b3 :: r =>
    simp only [utf8Decode, utf8Char2]
    rw [if_neg (by omega), if_pos h0, if_pos h1]

theorem utf8Decode_step3 {b0 b1 b2 : Nat} (h0 : 0xe0 ≤ b0 ∧ b0 < 0xf0)
    (h1 : isUtf8Cont b1 = true) (h2 : isUtf8Cont b2 = true)
    (hval : utf8Scalar3 b0 b1 b2 < 0xd800 ∨ 0xe000 ≤ utf8Scalar3 b0 b1 b2)
    (rest : List Nat) :
    utf8Decode (b0 :: b1 :: b2 :: rest) =
      Char.ofNat (utf8Scalar3 b0 b1 b2) :: utf8Decode rest := by
  match rest with
  | [] =>
    simp only [utf8Decode, utf8Char3]
    rw [if_neg (by omega), if_neg (by omega), if_pos h0, if_pos ⟨h1, h2⟩,
      if_pos hval]
  | b3 :: r =>
    simp only [utf8Decode, utf8Char3]
    rw [if_neg (by omega), if_neg (by omega), if_pos h0, if_pos ⟨h1, h2⟩,
      if_pos hval]

theorem utf8Decode_step4 {b0 b1 b2 b3 : Nat} (h0 : 0xf0 ≤ b0 ∧ b0 < 0xf8)
    (h1 : isUtf8Cont b1 = true) (h2 : isUtf8Cont b2 = true)
    (h3 : isUtf8Cont b3 = true)
    (hval : utf8Scalar4 b0 b1 b2 b3 < 0x110000)
    (rest : List Nat) :
    utf8Decode (b0 :: b1 :: b2 :: b3 :: rest) =
      Char.ofNat (utf8Scalar4 b0 b1 b2 b3) :: utf8Decode rest := by
  simp only [utf8Decode, utf8Char4]
  rw [if_neg (by omega), if_neg (by omega), if_neg (by omega), if_pos h0,
    if_pos ⟨h1, h2, h3⟩, if_pos hval]

theorem isUtf8Cont_of_form {n : Nat} (h : n < 64) :
    isUtf8Cont (0x80 + n) = true := by
  simp only [isUtf8Cont, Bool.and_eq_true, decide_eq_true_eq]
  omega

theorem utf8Decode_encodeChar (c : Char) (rest : List Nat) :
    utf8Decode (utf8EncodeChar c ++ rest) = c :: utf8Decode rest := by
  have hv := charValidNat c
  rcases Nat.lt_or_ge c.toNat 0x80 with h1 | h1
  · have he : utf8EncodeChar c = [c.toNat] := by
      simp only [utf8EncodeChar]
      rw [if_pos h1]
    rw [he, List.cons_append, List.nil_append, utf8Decode_step1 h1,
      Char.ofNat_toNat]
  rcases Nat.lt_or_ge c.toNat 0x800 with h2 | h2
  · have he : utf8EncodeChar c =
        [0xc0 + c.toNat / 64, 0x80 + c.toNat % 64] := by
      simp only [utf8EncodeChar]
      rw [if_neg (by omega), if_pos h2]
    rw [he, List.cons_append, List.cons_append, List.nil_append,
      utf8Decode_step2 (by omega) (isUtf8Cont_of_form (by omega))]
    have harith : utf8Scalar2 (0xc0 + c.toNat / 64) (0x80 + c.toNat % 64) =
        c.toNat := by
      simp only [utf8Scalar2]
      omega
    rw [harith, Char.ofNat_toNat]
  rcases Nat.lt_or_ge c.toNat 0x10000 with h3 | h3
  · have he : utf8EncodeChar c =
        [0xe0 + c.toNat / 4096, 0x80 + c.toNat / 64 % 64,
         0x80 + c.toNat % 64] := by
      simp only [utf8EncodeChar]
      rw [if_neg (by omega), if_neg (by omega), if_pos h3]
    have harith : utf8Scalar3 (0xe0 + c.toNat / 4096)
        (0x80 + c.toNat / 64 % 64) (0x80 + c.toNat % 64) = c.toNat := by
      simp only [utf8Scalar3]
      omega
    rw [he, List.cons_append, List.cons_append, List.cons_append,
      List.nil_append,
      utf8Decode_step3 (by omega) (isUtf8Cont_of_form (by omega))
        (isUtf8Cont_of_form (by omega)) (by rw [harith]; omega)]
    rw [harith, Char.ofNat_toNat]
  · have he : utf8EncodeChar c =
        [0xf0 + c.toNat / 262144, 0x80 + c.toNat / 4096 % 64,
         0x80 + c.toNat / 64 % 64, 0x80 + c.toNat % 64] := by
      simp only [utf8EncodeChar]
      rw [if_neg (by omega), if_neg (by omega), if_neg (by omega)]
    have harith : utf8Scalar4 (0xf0 + c.toNat / 262144)
        (0x80 + c.toNat / 4096 % 64) (0x80 + c.toNat / 64 % 64)
        (0x80 + c.toNat % 64) = c.toNat := by
      simp only [utf8Scalar4]
      omega
    rw [he, List.cons_append, List.cons_append, List.cons_append,
      List.cons_append, List.nil_append,
      utf8Decode_step4 (by omega) (isUtf8Cont_of_form (by omega))
        (isUtf8Cont_of_form (by omega)) (isUtf8Cont_of_form (by omega))
        (by rw [harith]; omega)]
    rw [harith, Char.ofNat_toNat]

theorem utf8Decode_utf8Encode (s : List Char) :
    utf8Decode (utf8Encode s) = s := by
  induction s with
  | nil => rfl
  | cons c s ih => rw [utf8Encode, utf8Decode_encodeChar, ih]

theorem utf8Encode_append (a b : List Char) :
    utf8Encode (a ++ b) = utf8Encode a ++ utf8Encode b := by
  induction a with
  | nil => rfl
  | cons c a ih => simp [utf8Encode, ih]

theorem utf8Len_append (a b : List Char) :
    utf8Len (a ++ b) = utf8Len a + utf8Len b := by
  simp [utf8Len, utf8Encode_append]

/-- ASCII strings occupy one byte per character. -/
theorem utf8Len_ascii {s : List Char} (h : ∀ c ∈ s, c.toNat < 0x80) :
    utf8Len s = s.length := by
  induction s with
  | nil => rfl
  | cons c s ih =>
    have hc : c.toNat < 0x80 := h c (by simp)
    have he : utf8EncodeChar c = [c.toNat] := by simp [utf8EncodeChar, hc]
    have := ih (fun x hx => h x (by simp [hx]))
    simp [utf8Len, utf8Encode, he] at this ⊢
    omega

/-! ## Lemmas: keystream XOR involution -/

theorem xorStream_xorStream (ks : Nat → Nat) (i : Nat) (bs : List Nat) :
    xorStream ks i (xorStream ks i bs) = bs := by
  induction bs generalizing i with
  | nil => rfl
  | cons b bs ih =>
    simp only [xorStream, Nat.xor_assoc, Nat.xor_self, Nat.xor_zero]
    rw [ih]

theorem xorStream_length (ks : Nat → Nat) (i : Nat) (bs : List Nat) :
    (xorStream ks i bs).length = bs.length := by
  induction bs generalizing i with
  | nil => rfl
  | cons b bs ih => simp [xorStream, ih]

theorem xorStream_lt_256 (ks : Nat → Nat) (hks : ∀ j, ks j < 256)
    (i : Nat) {bs : List Nat} (h : ∀ b ∈ bs, b < 256) :
    ∀ b ∈ xorStream ks i bs, b < 256 := by
  induction bs generalizing i with
  | nil => simp [xorStream]
  | cons b bs ih =>
    intro x hx
    simp only [xorStream, List.mem_cons] at hx
    rcases hx with rfl | hx
    · have h1 : b < 2 ^ 8 := h b (by simp)
      have h2 : ks i < 2 ^ 8 := hks i
      exact Nat.xor_lt_two_pow h1 h2
    · exact ih (i + 1) (fun y hy => h y (List.mem_cons_of_mem _ hy)) x hx

theorem keystreamByte_lt_256 (key iv : List Nat) (i : Nat) :
    keystreamByte key iv i < 256 := by
  simp [keystreamByte]
  omega

/-! ## Lemmas: digit strings -/

/-- A character is a decimal digit. -/
def isDigitChar (c : Char) : Bool := 48 ≤ c.toNat && c.toNat ≤ 57

theorem toNat_ofNat_valid {n : Nat} (h : n.isValidChar) :
    (Char.ofNat n).toNat = n := by
  simp [Char.ofNat, h, Char.ofNatAux, Char.toNat, UInt32.toNat,
    BitVec.toNat_ofNatLt]

theorem decDigitChar_isDigit (n : Nat) :
    isDigitChar (decDigitChar n) = true := by
  have hm : n % 10 < 10 := Nat.mod_lt _ (by omega)
  have hv : (48 + n % 10).isValidChar := Or.inl (by omega)
  simp only [decDigitChar, isDigitChar, toNat_ofNat_valid hv,
    Bool.and_eq_true, decide_eq_true_eq]
  omega

theorem natToDigitsAux_digits (fuel n : Nat) (acc : List Char)
    (hacc : ∀ c ∈ acc, isDigitChar c = true) :
    ∀ c ∈ natToDigitsAux fuel n acc, isDigitChar c = true := by
  induction fuel generalizing n acc with
  | zero => exact hacc
  | succ fuel ih =>
    simp only [natToDigitsAux]
    split
    · intro c hc
      rcases List.mem_cons.mp hc with rfl | hc
      · exact decDigitChar_isDigit n
      · exact hacc c hc
    · refine ih _ _ (fun c hc => ?_)
      rcases List.mem_cons.mp hc with rfl | hc
      · exact decDigitChar_isDigit n
      · exact hacc c hc

theorem natToString_digits (n : Nat) :
    ∀ c ∈ natToString n, isDigitChar c = true :=
  natToDigitsAux_digits _ _ _ (by simp)

theorem isDigitChar_facts {c : Char} (h : isDigitChar c = true) :
    c.toNat < 0x80 ∧ c ≠ '|' ∧ c ≠ ':' ∧ c ≠ '\n' := by
  simp only [isDigitChar, Bool.and_eq_true, decide_eq_true_eq] at h
  refine ⟨by omega, ?_, ?_, ?_⟩ <;> (rintro rfl; revert h; decide)

theorem intToString_facts (i : Int) :
    ∀ c ∈ intToString i, c.toNat < 0x80 ∧ c ≠ '|' ∧ c ≠ ':' ∧ c ≠ '\n' := by
  intro c hc
  simp only [intToString] at hc
  split at hc
  · rcases List.mem_cons.mp hc with rfl | hc
    · refine ⟨by decide, by decide, by decide, by decide⟩
    · exact isDigitChar_facts (natToString_digits _ c hc)
  · exact isDigitChar_facts (natToString_digits _ c hc)

/-! ## Lemmas: byte ranges and digest shapes -/

theorem utf8EncodeChar_lt_256 (c : Char) : ∀ b ∈ utf8EncodeChar c, b < 256 := by
  have hv := charValidNat c
  intro b hb
  simp only [utf8EncodeChar] at hb
  split at hb
  · simp at hb
    omega
  split at hb
  · simp at hb
    rcases hb with rfl | rfl <;> omega
  split at hb
  · simp at hb
    rcases hb with rfl | rfl | rfl <;> omega
  · simp at hb
    rcases hb with rfl | rfl | rfl | rfl <;> omega

theorem utf8Encode_lt_256 (s : List Char) : ∀ b ∈ utf8Encode s, b < 256 := by
  induction s with
  | nil => simp [utf8Encode]
  | cons c s ih =>
    intro b hb
    rcases List.mem_append.mp hb with hb | hb
    · exact utf8EncodeChar_lt_256 c b hb
    · exact ih b hb

theorem sha256Bytes_lt_256 (bs : List Nat) : ∀ b ∈ sha256Bytes bs, b < 256 := by
  intro b hb
  simp only [sha256Bytes, List.mem_map] at hb
  obtain ⟨i, _, rfl⟩ := hb
  exact Nat.mod_lt _ (by omega)

theorem sha256Bytes_length (bs : List Nat) : (sha256Bytes bs).length = 32 := by
  simp [sha256Bytes]

theorem sha256Hex_length (s : List Char) : (sha256Hex s).length = 64 := by
  simp [sha256Hex, bytesToHex_length, sha256Bytes_length]

theorem gcmTag_lt_256 (key iv ct : List Nat) : ∀ b ∈ gcmTag key iv ct, b < 256 := by
  intro b hb
  simp only [gcmTag, List.mem_map] at hb
  obtain ⟨i, _, rfl⟩ := hb
  exact Nat.mod_lt _ (by omega)

theorem gcmTag_length (key iv ct : List Nat) : (gcmTag key iv ct).length = 16 := by
  simp [gcmTag]

theorem gcmEncrypt_lt_256 (key iv : List Nat) {pt : List Nat}
    (h : ∀ b ∈ pt, b < 256) : ∀ b ∈ gcmEncrypt key iv pt, b < 256 :=
  xorStream_lt_256 _ (keystreamByte_lt_256 key iv) 0 h

theorem gcmEncrypt_length (key iv pt : List Nat) :
    (gcmEncrypt key iv pt).length = pt.length := xorStream_length _ 0 pt

theorem gcmDecrypt_gcmEncrypt (key iv pt : List Nat) :
    gcmDecrypt key iv (gcmTag key iv (gcmEncrypt key iv pt))
      (gcmEncrypt key iv pt) = some pt := by
  simp [gcmDecrypt, gcmEncrypt, xorStream_xorStream]

/-! ## The envelope produced by encrypt -/

/-- The ciphertext bytes encrypt produces for a plaintext under a key
buffer and IV. -/
def ctBytes (kb iv : List Nat) (text : List Char) : List Nat :=
  gcmEncrypt kb iv (utf8Encode text)

/-- The hex payload iv:tag:ciphertext encrypt assembles. -/
def payloadOf (kb iv : List Nat) (text : List Char) : List Char :=
  bytesToHex iv ++ (':' :: (bytesToHex (gcmTag kb iv (ctBytes kb iv text)) ++
    (':' :: bytesToHex (ctBytes kb iv text))))

/-- The whole v1 envelope encrypt assembles. -/
def envelopeOf (now : Int) (kb iv : List Nat) (text : List Char) : List Char :=
  String.data "v1|" ++ (intToString now ++ ('|' ::
    (sha256Hex (payloadOf kb iv text) ++ ('|' :: payloadOf kb iv text))))

theorem hexDecode_ne_nil_of_len {keyHex : List Char}
    (h : (hexDecode keyHex).length = KEY_LENGTH) : keyHex ≠ [] := by
  intro hnil
  rw [hnil] at h
  simp [hexDecode, KEY_LENGTH] at h

/-- encrypt succeeds exactly as the envelope description states whenever
the plaintext fits and the key decodes to 32 bytes. -/
theorem encrypt_eq (now : Int) (iv : List Nat) (text keyHex : List Char)
    (hkey : (hexDecode keyHex).length = KEY_LENGTH)
    (hsize : utf8Len text ≤ MAX_INPUT_SIZE) :
    encrypt now iv text keyHex =
      .ok (envelopeOf now (hexDecode keyHex) iv text) := by
  have h1 : isValidString text true = true := by simp [isValidString]
  have h2 : isValidString keyHex false = true := by
    simp [isValidString, hexDecode_ne_nil_of_len hkey]
  simp only [encrypt, h1, h2, not_true, if_false, hkey]
  rw [if_neg (by omega)]
  rfl

/-! ## Lemmas: decrypting the envelope -/

theorem listStartsWith_append (p r : List Char) :
    listStartsWith p (p ++ r) = true := by
  induction p with
  | nil => rfl
  | cons c cs ih => simp [listStartsWith, ih]

theorem payloadOf_facts (kb iv : List Nat) (text : List Char) :
    ∀ c ∈ payloadOf kb iv text, c.toNat < 0x80 ∧ c ≠ '|' ∧ c ≠ '\n' := by
  intro c hc
  simp only [payloadOf, List.mem_append, List.mem_cons] at hc
  rcases hc with h | (rfl | (h | (rfl | h)))
  · obtain ⟨ha, hb, _, hd⟩ := isHexChar_facts (bytesToHex_isHex _ c h)
    exact ⟨ha, hb, hd⟩
  · exact ⟨by decide, by decide, by decide⟩
  · obtain ⟨ha, hb, _, hd⟩ := isHexChar_facts (bytesToHex_isHex _ c h)
    exact ⟨ha, hb, hd⟩
  · exact ⟨by decide, by decide, by decide⟩
  · obtain ⟨ha, hb, _, hd⟩ := isHexChar_facts (bytesToHex_isHex _ c h)
    exact ⟨ha, hb, hd⟩

theorem splitChar_envelopeOf (now : Int) (kb iv : List Nat) (text : List Char) :
    splitChar '|' (envelopeOf now kb iv text) =
      [String.data "v1", intToString now, sha256Hex (payloadOf kb iv text),
       payloadOf kb iv text] := by
  have h1 : ('|' : Char) ∉ String.data "v1" := by decide
  have h2 : ('|' : Char) ∉ intToString now := fun hm =>
    absurd rfl (intToString_facts now '|' hm).2.1.symm
  have h3 : ('|' : Char) ∉ sha256Hex (payloadOf kb iv text) := by
    intro hm
    have := isHexChar_facts (bytesToHex_isHex _ '|' (by
      simpa [sha256Hex] using hm))
    exact absurd rfl this.2.1.symm
  have h4 : ('|' : Char) ∉ payloadOf kb iv text := fun hm =>
    absurd rfl (payloadOf_facts kb iv text '|' hm).2.1.symm
  have he : envelopeOf now kb iv text =
      String.data "v1" ++ '|' :: (intToString now ++ '|' ::
        (sha256Hex (payloadOf kb iv text) ++ '|' :: payloadOf kb iv text)) := by
    simp [envelopeOf]
  rw [he, splitChar_append_sep h1, splitChar_append_sep h2,
    splitChar_append_sep h3, splitChar_no_sep h4]

theorem splitChar_payloadOf (kb iv : List Nat) (text : List Char) :
    splitChar ':' (payloadOf kb iv text) =
      [bytesToHex iv, bytesToHex (gcmTag kb iv (ctBytes kb iv text)),
       bytesToHex (ctBytes kb iv text)] := by
  have hnosep : ∀ bs : List Nat, (':' : Char) ∉ bytesToHex bs := by
    intro bs hm
    exact absurd rfl (isHexChar_facts (bytesToHex_isHex bs ':' hm)).2.2.1.symm
  rw [payloadOf, splitChar_append_sep (hnosep iv),
    splitChar_append_sep (hnosep _), splitChar_no_sep (hnosep _)]

/-- The payload half of decrypt inverts encrypt: length checks pass and
authentication succeeds, decoding back to the plaintext. -/
theorem decryptPayload_payloadOf (kb iv : List Nat) (text : List Char)
    (hiv : iv.length = IV_LENGTH) (hiv256 : ∀ b ∈ iv, b < 256) :
    decryptPayload (payloadOf kb iv text) kb = some text := by
  rw [decryptPayload, splitChar_payloadOf]
  dsimp only
  simp only [ctBytes]
  rw [hexDecode_bytesToHex hiv256,
    hexDecode_bytesToHex (gcmTag_lt_256 kb iv (gcmEncrypt kb iv (utf8Encode text))),
    hexDecode_bytesToHex (gcmEncrypt_lt_256 kb iv (utf8Encode_lt_256 text))]
  rw [if_neg (by simp [hiv]), if_neg (by simp [gcmTag_length, AUTH_TAG_LENGTH])]
  rw [gcmDecrypt_gcmEncrypt]
  simp [utf8Decode_utf8Encode]

/-- The try block of decrypt inverts encrypt: the v1 envelope passes the
prefix check, the checksum check, the payload split, the length checks and
authentication, and decodes back to the plaintext. -/
theorem decryptTry_envelopeOf (now : Int) (kb iv : List Nat) (text : List Char)
    (hiv : iv.length = IV_LENGTH) (hiv256 : ∀ b ∈ iv, b < 256) :
    decryptTry (envelopeOf now kb iv text) kb = some text := by
  have hpre : listStartsWith (String.data "v1|") (envelopeOf now kb iv text) =
      true := by
    have hsh : envelopeOf now kb iv text = String.data "v1|" ++
        (intToString now ++ '|' :: sha256Hex (payloadOf kb iv text) ++
         '|' :: payloadOf kb iv text) := by
      simp [envelopeOf]
    rw [hsh, listStartsWith_append]
  simp only [decryptTry, hpre, if_true, splitChar_envelopeOf, if_pos rfl]
  exact decryptPayload_payloadOf kb iv text hiv hiv256

/-- The try block of decrypt also accepts the bare legacy payload: it
fails the version-prefix check and is treated whole as iv:tag:data. -/
theorem decryptTry_payloadOf (kb iv : List Nat) (text : List Char)
    (hiv : iv.length = IV_LENGTH) (hiv256 : ∀ b ∈ iv, b < 256) :
    decryptTry (payloadOf kb iv text) kb = some text := by
  have hpre : listStartsWith (String.data "v1|") (payloadOf kb iv text) =
      false := by
    cases hivc : iv with
    | nil => rw [hivc] at hiv; simp [IV_LENGTH] at hiv
    | cons b bs =>
      have hhex : isHexChar (hexDigitChar (b / 16 % 16)) = true :=
        hexDigitChar_isHex (Nat.mod_lt _ (by omega))
      have hne : ¬ ('v' = hexDigitChar (b / 16 % 16)) := by
        intro he
        have h2 := congrArg Char.toNat he
        have h118 : ('v' : Char).toNat = 118 := by decide
        simp only [isHexChar, Bool.or_eq_true, Bool.and_eq_true,
          decide_eq_true_eq] at hhex
        omega
      rw [payloadOf]
      simp only [bytesToHex, byteToHex, List.cons_append]
      simp [listStartsWith, hne]
  simp only [decryptTry, hpre, Bool.false_eq_true, if_false]
  exact decryptPayload_payloadOf kb iv text hiv hiv256

/-! ## Lemmas: envelope sizes -/

theorem payloadOf_length (kb : List Nat) {iv : List Nat} (text : List Char)
    (hiv : iv.length = IV_LENGTH) :
    (payloadOf kb iv text).length = 58 + 2 * utf8Len text := by
  simp [payloadOf, bytesToHex_length, gcmTag_length, hiv, ctBytes,
    gcmEncrypt_length, utf8Len, IV_LENGTH]
  ring

theorem payloadOf_ascii (kb iv : List Nat) (text : List Char) :
    ∀ c ∈ payloadOf kb iv text, c.toNat < 0x80 :=
  fun c hc => (payloadOf_facts kb iv text c hc).1

theorem payloadOf_utf8Len (kb : List Nat) {iv : List Nat} (text : List Char)
    (hiv : iv.length = IV_LENGTH) :
    utf8Len (payloadOf kb iv text) = 58 + 2 * utf8Len text := by
  rw [utf8Len_ascii (payloadOf_ascii kb iv text), payloadOf_length kb text hiv]

theorem envelopeOf_ascii (now : Int) (kb iv : List Nat) (text : List Char) :
    ∀ c ∈ envelopeOf now kb iv text, c.toNat < 0x80 := by
  intro c hc
  simp only [envelopeOf, List.mem_append, List.mem_cons, List.not_mem_nil,
    or_false] at hc
  rcases hc with (rfl | rfl | rfl) | (h | (rfl | (h | (rfl | h))))
  · decide
  · decide
  · decide
  · exact (intToString_facts now c h).1
  · decide
  · exact (isHexChar_facts (bytesToHex_isHex _ c (by simpa [sha256Hex] using h))).1
  · decide
  · exact (payloadOf_facts kb iv text c h).1

theorem envelopeOf_length (now : Int) (kb : List Nat) {iv : List Nat}
    (text : List Char) (hiv : iv.length = IV_LENGTH) :
    (envelopeOf now kb iv text).length =
      127 + (intToString now).length + 2 * utf8Len text := by
  simp [envelopeOf, sha256Hex_length, payloadOf_length kb text hiv]
  ring

theorem envelopeOf_utf8Len (now : Int) (kb : List Nat) {iv : List Nat}
    (text : List Char) (hiv : iv.length = IV_LENGTH) :
    utf8Len (envelopeOf now kb iv text) =
      127 + (intToString now).length + 2 * utf8Len text := by
  rw [utf8Len_ascii (envelopeOf_ascii now kb iv text),
    envelopeOf_length now kb text hiv]

theorem envelopeOf_ne_nil (now : Int) (kb iv : List Nat) (text : List Char) :
    envelopeOf now kb iv text ≠ [] := by
  simp [envelopeOf]

/-! ## Lemmas: decrypt on well-formed inputs -/

/-- decrypt inverts encrypt whenever the envelope passes the size cap and
the key is not rate limited; the returned state is the one the rate-limit
check produced. -/
theorem decrypt_envelopeOf (tEnc now : Int) (iv : List Nat)
    (text keyHex : List Char) (st : CryptoState)
    (hkey : (hexDecode keyHex).length = KEY_LENGTH)
    (hiv : iv.length = IV_LENGTH) (hiv256 : ∀ b ∈ iv, b < 256)
    (hsize : utf8Len (envelopeOf tEnc (hexDecode keyHex) iv text) ≤
      MAX_INPUT_SIZE * 2)
    (hrl : (isRateLimited now keyHex st).1 = false) :
    decrypt now (envelopeOf tEnc (hexDecode keyHex) iv text) keyHex st =
      (.ok text, (isRateLimited now keyHex st).2) := by
  have h1 : isValidString (envelopeOf tEnc (hexDecode keyHex) iv text) false =
      true := by
    simp [isValidString, envelopeOf_ne_nil]
  have h2 : isValidString keyHex false = true := by
    simp [isValidString, hexDecode_ne_nil_of_len hkey]
  rcases hpair : isRateLimited now keyHex st with ⟨b, st1⟩
  have hb : b = false := by rw [hpair] at hrl; exact hrl
  subst hb
  simp only [decrypt, h1, h2, not_true, if_false, hpair]
  rw [if_neg (by omega)]
  simp only [hkey, ne_eq, not_true_eq_false, if_false,
    decryptTry_envelopeOf tEnc (hexDecode keyHex) iv text hiv hiv256]

/-- decrypt accepts the bare legacy payload of an envelope whenever it
passes the size cap and the key is not rate limited. -/
theorem decrypt_payloadOf (now : Int) (iv : List Nat)
    (text keyHex : List Char) (st : CryptoState)
    (hkey : (hexDecode keyHex).length = KEY_LENGTH)
    (hiv : iv.length = IV_LENGTH) (hiv256 : ∀ b ∈ iv, b < 256)
    (hsize : utf8Len (payloadOf (hexDecode keyHex) iv text) ≤
      MAX_INPUT_SIZE * 2)
    (hrl : (isRateLimited now keyHex st).1 = false) :
    decrypt now (payloadOf (hexDecode keyHex) iv text) keyHex st =
      (.ok text, (isRateLimited now keyHex st).2) := by
  have hne : payloadOf (hexDecode keyHex) iv text ≠ [] := by
    have := payloadOf_length (hexDecode keyHex) text hiv
    intro hnil
    rw [hnil] at this
    simp only [List.length_nil] at this
    omega
  have h1 : isValidString (payloadOf (hexDecode keyHex) iv text) false =
      true := by
    simp [isValidString, hne]
  have h2 : isValidString keyHex false = true := by
    simp [isValidString, hexDecode_ne_nil_of_len hkey]
  rcases hpair : isRateLimited now keyHex st with ⟨b, st1⟩
  have hb : b = false := by rw [hpair] at hrl; exact hrl
  subst hb
  simp only [decrypt, h1, h2, not_true, if_false, hpair]
  rw [if_neg (by omega)]
  simp only [hkey, ne_eq, not_true_eq_false, if_false,
    decryptTry_payloadOf (hexDecode keyHex) iv text hiv hiv256]

/-! ## Lemmas: the attempt tracker -/

theorem mapGet_mapSet_self (m : List (List Char × AttemptRecord))
    (k : List Char) (v : AttemptRecord) : mapGet (mapSet m k v) k = some v := by
  induction m with
  | nil => simp [mapSet, mapGet]
  | cons e rest ih =>
    obtain ⟨k0, v0⟩ := e
    by_cases hk : k0 = k
    · simp [mapSet, mapGet, hk]
    · simp [mapSet, mapGet, hk, ih]

theorem mapGet_filter {m : List (List Char × AttemptRecord)}
    {k : List Char} {r : AttemptRecord}
    (p : List Char × AttemptRecord → Bool)
    (hget : mapGet m k = some r) (hp : p (k, r) = true) :
    mapGet (m.filter p) k = some r := by
  induction m with
  | nil => simp [mapGet] at hget
  | cons e rest ih =>
    obtain ⟨k0, v0⟩ := e
    by_cases hk : k0 = k
    · subst hk
      simp only [mapGet, if_pos rfl] at hget
      obtain rfl := Option.some.inj hget
      simp [List.filter_cons, hp, mapGet]
    · simp only [mapGet, hk, if_false, reduceIte] at hget
      have := ih hget
      simp only [List.filter_cons]
      cases hpe : p (k0, v0) <;> simp [mapGet, hk, this]

/-- The state the rate-limit check leaves behind when the verdict is
limited: the opportunistic cleanup may have run, but the limited record
itself is still present and unchanged. -/
theorem isRateLimited_true_of_record (now : Int) (keyHex : List Char)
    (st : CryptoState) (r : AttemptRecord)
    (hrec : mapGet st.failedAttempts (sha256Hex keyHex) = some r)
    (hcount : r.count ≥ MAX_FAILED_ATTEMPTS)
    (hwin : now - r.firstAttempt ≤ RATE_LIMIT_WINDOW) :
    (isRateLimited now keyHex st).1 = true ∧
    mapGet (isRateLimited now keyHex st).2.failedAttempts
      (sha256Hex keyHex) = some r := by
  by_cases hclean : now - st.lastCleanup > CLEANUP_INTERVAL
  · have hget1 : mapGet (cleanupFailedAttempts now st).failedAttempts
        (sha256Hex keyHex) = some r := by
      simp only [cleanupFailedAttempts]
      refine mapGet_filter _ hrec ?_
      simp only [decide_eq_true_eq]
      omega
    simp only [isRateLimited, if_pos hclean, hget1, Option.getD_some]
    rw [if_neg (by omega), if_pos hcount]
    exact ⟨rfl, hget1⟩
  · simp only [isRateLimited, if_neg hclean, hrec, Option.getD_some]
    rw [if_neg (by omega), if_pos hcount]
    exact ⟨rfl, hrec⟩

/-- decrypt under an exhausted window: the rate-limit error is returned
before any cryptographic work and the record for the key hash is left
exactly as it was. -/
theorem decrypt_rateLimited (now : Int) (ct keyHex : List Char)
    (st : CryptoState) (r : AttemptRecord)
    (hne : ct ≠ []) (hsz : utf8Len ct ≤ MAX_INPUT_SIZE * 2)
    (hkstr : keyHex ≠ [])
    (hrec : mapGet st.failedAttempts (sha256Hex keyHex) = some r)
    (hcount : r.count ≥ MAX_FAILED_ATTEMPTS)
    (hwin : now - r.firstAttempt ≤ RATE_LIMIT_WINDOW) :
    (decrypt now ct keyHex st).1 = .error msgRateLimited ∧
    mapGet (decrypt now ct keyHex st).2.failedAttempts
      (sha256Hex keyHex) = some r := by
  obtain ⟨hfst, hsnd⟩ := isRateLimited_true_of_record now keyHex st r hrec
    hcount hwin
  have h1 : isValidString ct false = true := by simp [isValidString, hne]
  have h2 : isValidString keyHex false = true := by
    simp [isValidString, hkstr]
  rcases hpair : isRateLimited now keyHex st with ⟨b, st1⟩
  have hb : b = true := by rw [hpair] at hfst; exact hfst
  subst hb
  rw [hpair] at hsnd
  simp only [decrypt, h1, h2, not_true, if_false, hpair]
  rw [if_neg (by omega)]
  exact ⟨rfl, hsnd⟩

/-! ## Concrete inputs used by counterexamples and witnesses -/

/-- A valid key: 64 hex characters decoding to 32 bytes. -/
def keyA64 : List Char := List.replicate 64 'a'

/-- A second valid key, distinct from the first. -/
def keyB64 : List Char := List.replicate 64 'b'

/-- A fixed 12-byte IV. -/
def iv0 : List Nat := List.replicate 12 0

/-- The pristine module state: no failed attempts recorded. -/
def st0 : CryptoState := ⟨[], 0⟩

/-- A plaintext of exactly the maximum allowed size, 10485760 ASCII
bytes. -/
def bigText : List Char := List.replicate MAX_INPUT_SIZE 'a'

theorem bigText_utf8Len : utf8Len bigText = MAX_INPUT_SIZE := by
  rw [utf8Len_ascii]
  · simp [bigText]
  · intro c hc
    rw [List.eq_of_mem_replicate hc]
    decide

theorem keyA64_decodes : (hexDecode keyA64).length = KEY_LENGTH := by decide

/-! ## Claim C1 -/

/-- C1 (amended): for every plaintext p and key decoding to exactly 32
bytes, decrypt(encrypt(p, k), k) returns p — provided the plaintext is
within the 10 MiB encryption cap AND small enough that the whole envelope
(127 metadata characters plus the timestamp digits plus two hex characters
per plaintext byte) stays within the decrypt size cap of twice 10 MiB, and
the key is not currently rate limited.  The original claim, which allowed
every p up to 10 MiB, is refuted by c1_counterexample: near the cap the
envelope overhead pushes the ciphertext past decrypt's size check. -/
theorem c1_roundtrip (tEnc now : Int) (iv : List Nat) (p keyHex : List Char)
    (st : CryptoState) (e : List Char)
    (hkey : (hexDecode keyHex).length = KEY_LENGTH)
    (hiv : iv.length = IV_LENGTH) (hiv256 : ∀ b ∈ iv, b < 256)
    (hplain : utf8Len p ≤ MAX_INPUT_SIZE)
    (henv : 127 + (intToString tEnc).length + 2 * utf8Len p ≤
      MAX_INPUT_SIZE * 2)
    (hrl : (isRateLimited now keyHex st).1 = false)
    (henc : encrypt tEnc iv p keyHex = .ok e) :
    (decrypt now e keyHex st).1 = .ok p := by
  rw [encrypt_eq tEnc iv p keyHex hkey hplain] at henc
  obtain rfl : envelopeOf tEnc (hexDecode keyHex) iv p = e :=
    Except.ok.inj henc
  rw [decrypt_envelopeOf tEnc now iv p keyHex st hkey hiv hiv256
    (by rw [envelopeOf_utf8Len tEnc (hexDecode keyHex) p hiv]; omega) hrl]

/-- C1 witness: a concrete round trip through encrypt and decrypt. -/
theorem c1_roundtrip_witness :
    (decrypt 6 (envelopeOf 5 (hexDecode keyA64) iv0 (String.data "hi"))
      keyA64 st0).1 = .ok (String.data "hi") :=
  c1_roundtrip 5 6 iv0 (String.data "hi") keyA64 st0 _ (by decide) (by decide)
    (by decide) (by decide) (by decide) (by decide) rfl

/-- C1 counterexample: the claim as stated fails at the boundary.  A
plaintext of exactly 10 MiB encrypts successfully, but its envelope is
20971660 UTF-8 bytes — more than decrypt's cap of twice 10 MiB — so
decrypt rejects it with the input-too-large error instead of returning
the plaintext. -/
theorem c1_counterexample :
    utf8Len bigText ≤ MAX_INPUT_SIZE ∧
    encrypt 1700000000000 iv0 bigText keyA64 =
      .ok (envelopeOf 1700000000000 (hexDecode keyA64) iv0 bigText) ∧
    (decrypt 1700000000000
      (envelopeOf 1700000000000 (hexDecode keyA64) iv0 bigText)
      keyA64 st0).1 = .error (msgDecTooLarge 20971660) := by
  have htslen : (intToString (1700000000000 : Int)).length = 13 := by decide
  have hivlen : iv0.length = IV_LENGTH := by decide
  have henvlen : utf8Len (envelopeOf 1700000000000 (hexDecode keyA64) iv0
      bigText) = 20971660 := by
    rw [envelopeOf_utf8Len 1700000000000 (hexDecode keyA64) bigText hivlen,
      htslen, bigText_utf8Len]
    decide
  refine ⟨le_of_eq bigText_utf8Len,
    encrypt_eq _ _ _ _ keyA64_decodes (le_of_eq bigText_utf8Len), ?_⟩
  have h1 : isValidString (envelopeOf 1700000000000 (hexDecode keyA64) iv0
      bigText) false = true := by
    simp [isValidString, envelopeOf_ne_nil]
  simp only [decrypt, h1, not_true, if_false]
  rw [if_pos (by rw [henvlen]; decide), henvlen]

/-! ## Claim C8 -/

/-- C8: for every plaintext within the 10 MiB cap and every key decoding
to exactly 32 bytes, encrypt returns exactly the string
v1|timestamp|checksum|iv_hex:tag_hex:ct_hex, where splitting on the pipe
yields the four fields, splitting the payload on the colon yields the
three hex segments, the iv segment is 24 hex characters, the tag segment
is 32 hex characters, the ciphertext segment is twice the UTF-8 byte
length of the plaintext, and the checksum field is the hex SHA-256 digest
of the payload field. -/
theorem c8_envelope_shape (now : Int) (iv : List Nat) (p keyHex : List Char)
    (hkey : (hexDecode keyHex).length = KEY_LENGTH)
    (hiv : iv.length = IV_LENGTH)
    (hsize : utf8Len p ≤ MAX_INPUT_SIZE) :
    encrypt now iv p keyHex = .ok (envelopeOf now (hexDecode keyHex) iv p) ∧
    splitChar '|' (envelopeOf now (hexDecode keyHex) iv p) =
      [String.data "v1", intToString now,
       sha256Hex (payloadOf (hexDecode keyHex) iv p),
       payloadOf (hexDecode keyHex) iv p] ∧
    splitChar ':' (payloadOf (hexDecode keyHex) iv p) =
      [bytesToHex iv,
       bytesToHex (gcmTag (hexDecode keyHex) iv
         (ctBytes (hexDecode keyHex) iv p)),
       bytesToHex (ctBytes (hexDecode keyHex) iv p)] ∧
    (bytesToHex iv).length = 24 ∧
    (bytesToHex (gcmTag (hexDecode keyHex) iv
      (ctBytes (hexDecode keyHex) iv p))).length = 32 ∧
    (bytesToHex (ctBytes (hexDecode keyHex) iv p)).length = 2 * utf8Len p := by
  refine ⟨encrypt_eq now iv p keyHex hkey hsize,
    splitChar_envelopeOf now (hexDecode keyHex) iv p,
    splitChar_payloadOf (hexDecode keyHex) iv p, ?_, ?_, ?_⟩
  · rw [bytesToHex_length, hiv]
    rfl
  · rw [bytesToHex_length, gcmTag_length]
  · rw [bytesToHex_length, ctBytes, gcmEncrypt_length, utf8Len]

/-- C8 witness: the envelope shape at a concrete plaintext and key. -/
theorem c8_envelope_shape_witness :
    encrypt 5 iv0 (String.data "hi") keyA64 =
      .ok (envelopeOf 5 (hexDecode keyA64) iv0 (String.data "hi")) ∧
    splitChar '|' (envelopeOf 5 (hexDecode keyA64) iv0 (String.data "hi")) =
      [String.data "v1", intToString 5,
       sha256Hex (payloadOf (hexDecode keyA64) iv0 (String.data "hi")),
       payloadOf (hexDecode keyA64) iv0 (String.data "hi")] ∧
    splitChar ':' (payloadOf (hexDecode keyA64) iv0 (String.data "hi")) =
      [bytesToHex iv0,
       bytesToHex (gcmTag (hexDecode keyA64) iv0
         (ctBytes (hexDecode keyA64) iv0 (String.data "hi"))),
       bytesToHex (ctBytes (hexDecode keyA64) iv0 (String.data "hi"))] ∧
    (bytesToHex iv0).length = 24 ∧
    (bytesToHex (gcmTag (hexDecode keyA64) iv0
      (ctBytes (hexDecode keyA64) iv0 (String.data "hi")))).length = 32 ∧
    (bytesToHex (ctBytes (hexDecode keyA64) iv0
      (String.data "hi"))).length = 2 * utf8Len (String.data "hi") :=
  c8_envelope_shape 5 iv0 (String.data "hi") keyA64 (by decide) (by decide)
    (by decide)

/-! ## Claim C9 -/

theorem listStartsWith_iff_append (p l : List Char) :
    listStartsWith p l = true ↔ ∃ r, l = p ++ r := by
  induction p generalizing l with
  | nil => simp [listStartsWith]
  | cons c cs ih =>
    cases l with
    | nil => simp [listStartsWith]
    | cons x xs =>
      simp only [listStartsWith, Bool.and_eq_true, decide_eq_true_eq, ih,
        List.cons_append, List.cons.injEq]
      constructor
      · rintro ⟨rfl, r, rfl⟩
        exact ⟨r, rfl, rfl⟩
      · rintro ⟨r, rfl, rfl⟩
        exact ⟨rfl, r, rfl⟩

/-- C9 (amended): every envelope produced by encrypt carries as its fourth
pipe-separated field the bare legacy payload iv:tag:ciphertext, and that
bare payload decrypts with the matching key to the same plaintext —
provided the payload (58 + 2n characters) is within decrypt's size cap,
which bounds the plaintext slightly below the 10 MiB encryption cap (see
c9_counterexample).  decrypt treats an input as versioned exactly when it
starts with the three characters v1 and pipe, and otherwise hands the
entire input to the payload parser. -/
theorem c9_legacy_compat (tEnc now : Int) (iv : List Nat)
    (p keyHex : List Char) (st : CryptoState) (e : List Char)
    (hkey : (hexDecode keyHex).length = KEY_LENGTH)
    (hiv : iv.length = IV_LENGTH) (hiv256 : ∀ b ∈ iv, b < 256)
    (hplain : utf8Len p ≤ MAX_INPUT_SIZE)
    (hsz : 58 + 2 * utf8Len p ≤ MAX_INPUT_SIZE * 2)
    (hrl : (isRateLimited now keyHex st).1 = false)
    (henc : encrypt tEnc iv p keyHex = .ok e) :
    splitChar '|' e =
      [String.data "v1", intToString tEnc,
       sha256Hex (payloadOf (hexDecode keyHex) iv p),
       payloadOf (hexDecode keyHex) iv p] ∧
    (decrypt now (payloadOf (hexDecode keyHex) iv p) keyHex st).1 = .ok p ∧
    (∀ ct : List Char, listStartsWith (String.data "v1|") ct = true ↔
      ∃ rest, ct = 'v' :: '1' :: '|' :: rest) ∧
    (∀ ct : List Char, ∀ kb : List Nat,
      listStartsWith (String.data "v1|") ct = false →
      decryptTry ct kb = decryptPayload ct kb) := by
  rw [encrypt_eq tEnc iv p keyHex hkey hplain] at henc
  obtain rfl : envelopeOf tEnc (hexDecode keyHex) iv p = e :=
    Except.ok.inj henc
  refine ⟨splitChar_envelopeOf tEnc (hexDecode keyHex) iv p, ?_, ?_, ?_⟩
  · rw [decrypt_payloadOf now iv p keyHex st hkey hiv hiv256
      (by rw [payloadOf_utf8Len (hexDecode keyHex) p hiv]; omega) hrl]
  · intro ct
    exact listStartsWith_iff_append (String.data "v1|") ct
  · intro ct kb h
    simp [decryptTry, h]

/-- C9 witness: a concrete legacy decryption of the payload field of a
concrete envelope. -/
theorem c9_legacy_compat_witness :
    splitChar '|' (envelopeOf 5 (hexDecode keyA64) iv0 (String.data "hi")) =
      [String.data "v1", intToString 5,
       sha256Hex (payloadOf (hexDecode keyA64) iv0 (String.data "hi")),
       payloadOf (hexDecode keyA64) iv0 (String.data "hi")] ∧
    (decrypt 6 (payloadOf (hexDecode keyA64) iv0 (String.data "hi"))
      keyA64 st0).1 = .ok (String.data "hi") ∧
    (∀ ct : List Char, listStartsWith (String.data "v1|") ct = true ↔
      ∃ rest, ct = 'v' :: '1' :: '|' :: rest) ∧
    (∀ ct : List Char, ∀ kb : List Nat,
      listStartsWith (String.data "v1|") ct = false →
      decryptTry ct kb = decryptPayload ct kb) :=
  c9_legacy_compat 5 6 iv0 (String.data "hi") keyA64 st0 _ (by decide)
    (by decide) (by decide) (by decide) (by decide) (by decide) rfl

/-- C9 counterexample: the claim as stated fails at the boundary.  For a
10 MiB plaintext the bare legacy payload is 20971578 characters — past
decrypt's size cap — so the legacy form of a valid envelope does not
decrypt to the plaintext but fails with the input-too-large error. -/
theorem c9_counterexample :
    encrypt 1700000000000 iv0 bigText keyA64 =
      .ok (envelopeOf 1700000000000 (hexDecode keyA64) iv0 bigText) ∧
    (decrypt 1700000000000 (payloadOf (hexDecode keyA64) iv0 bigText)
      keyA64 st0).1 = .error (msgDecTooLarge 20971578) := by
  have hivlen : iv0.length = IV_LENGTH := by decide
  have hpl : utf8Len (payloadOf (hexDecode keyA64) iv0 bigText) =
      20971578 := by
    rw [payloadOf_utf8Len (hexDecode keyA64) bigText hivlen, bigText_utf8Len]
    decide
  refine ⟨encrypt_eq _ _ _ _ keyA64_decodes (le_of_eq bigText_utf8Len), ?_⟩
  have hne : payloadOf (hexDecode keyA64) iv0 bigText ≠ [] := by
    intro hnil
    rw [hnil] at hpl
    simp [utf8Len, utf8Encode] at hpl
  have h1 : isValidString (payloadOf (hexDecode keyA64) iv0 bigText) false =
      true := by
    simp [isValidString, hne]
  simp only [decrypt, h1, not_true, if_false]
  rw [if_pos (by rw [hpl]; decide), hpl]

/-! ## Claim C2 -/

/-- C2: for every envelope string that passes the input pre-checks and
every key decoding to 32 bytes, decrypt either succeeds, fails with the
rate-limit message, or fails with the one uniform message text
Decryption failed: Invalid or corrupted data — every decryption-path
failure (version-format error, checksum mismatch, wrong field count,
wrong iv or tag length, cipher authentication failure) collapses into
that single error, and only the pre-check RateLimited case is
distinguishable from it. -/
theorem c2_uniform_failure (now : Int) (ct keyHex : List Char)
    (st : CryptoState)
    (hkey : (hexDecode keyHex).length = KEY_LENGTH)
    (hne : ct ≠ []) (hsz : utf8Len ct ≤ MAX_INPUT_SIZE * 2) :
    (∃ p, (decrypt now ct keyHex st).1 = .ok p) ∨
    (decrypt now ct keyHex st).1 = .error msgRateLimited ∨
    (decrypt now ct keyHex st).1 = .error msgInvalidOrCorrupted := by
  have h1 : isValidString ct false = true := by simp [isValidString, hne]
  have h2 : isValidString keyHex false = true := by
    simp [isValidString, hexDecode_ne_nil_of_len hkey]
  rcases hpair : isRateLimited now keyHex st with ⟨b, st1⟩
  simp only [decrypt, h1, h2, not_true, if_false, hpair]
  rw [if_neg (by omega)]
  cases b
  · simp only [hkey, ne_eq, not_true_eq_false, if_false]
    cases htry : decryptTry ct (hexDecode keyHex) with
    | none => exact Or.inr (Or.inr rfl)
    | some p => exact Or.inl ⟨p, rfl⟩
  · exact Or.inr (Or.inl rfl)

/-- C2 witness: a concrete malformed envelope fails with exactly the
uniform message. -/
theorem c2_uniform_failure_witness :
    (∃ p, (decrypt 0 (String.data "xx") keyA64 st0).1 = .ok p) ∨
    (decrypt 0 (String.data "xx") keyA64 st0).1 = .error msgRateLimited ∨
    (decrypt 0 (String.data "xx") keyA64 st0).1 =
      .error msgInvalidOrCorrupted :=
  c2_uniform_failure 0 (String.data "xx") keyA64 st0 (by decide) (by decide)
    (by decide)

/-! ## Claim C5 -/

/-- C5: whenever the tracker record for the hash of the supplied key has
reached 10 failures within the current 60-second window, decrypt fails
immediately with the rate-limit error — for every envelope content, so no
key-dependent cryptographic work is performed — and the check records no
new failure: the record for that key hash is returned unchanged. -/
theorem c5_rate_limit_gate (now : Int) (ct keyHex : List Char)
    (st : CryptoState) (r : AttemptRecord)
    (hne : ct ≠ []) (hsz : utf8Len ct ≤ MAX_INPUT_SIZE * 2)
    (hkstr : keyHex ≠ [])
    (hrec : mapGet st.failedAttempts (sha256Hex keyHex) = some r)
    (hcount : r.count ≥ MAX_FAILED_ATTEMPTS)
    (hwin : now - r.firstAttempt ≤ RATE_LIMIT_WINDOW) :
    (decrypt now ct keyHex st).1 = .error msgRateLimited ∧
    mapGet (decrypt now ct keyHex st).2.failedAttempts
      (sha256Hex keyHex) = some r :=
  decrypt_rateLimited now ct keyHex st r hne hsz hkstr hrec hcount hwin

/-- A state in which the hash of keyB64 has exhausted its window: 10
failures recorded at time 2000000. -/
def stRL : CryptoState := ⟨[(sha256Hex keyB64, ⟨10, 2000000⟩)], 2000000⟩

/-- C5 witness: a concrete rate-limited call, record unchanged. -/
theorem c5_rate_limit_gate_witness :
    (decrypt 2050000 (String.data "xx") keyB64 stRL).1 =
      .error msgRateLimited ∧
    mapGet (decrypt 2050000 (String.data "xx") keyB64 stRL).2.failedAttempts
      (sha256Hex keyB64) = some ⟨10, 2000000⟩ :=
  c5_rate_limit_gate 2050000 (String.data "xx") keyB64 stRL ⟨10, 2000000⟩
    (by decide) (by decide) (by decide) (by decide) (by decide) (by decide)

/-! ## Claim C6 -/

theorem mapGet_recordFailedAttempt_self (now : Int) (keyHex : List Char)
    (st : CryptoState) :
    mapGet (recordFailedAttempt now keyHex st).failedAttempts
      (sha256Hex keyHex) =
      some (match mapGet st.failedAttempts (sha256Hex keyHex) with
            | none => ⟨1, now⟩
            | some r =>
              if now - r.firstAttempt > RATE_LIMIT_WINDOW then ⟨1, now⟩
              else ⟨r.count + 1, r.firstAttempt⟩) := by
  cases hr : mapGet st.failedAttempts (sha256Hex keyHex) with
  | none =>
    simp only [recordFailedAttempt, hr, Option.getD_none]
    rw [if_neg (show ¬ (now - now > RATE_LIMIT_WINDOW) by
      simp [RATE_LIMIT_WINDOW])]
    simp [mapGet_mapSet_self]
  | some r =>
    simp only [recordFailedAttempt, hr, Option.getD_some]
    by_cases hw : now - r.firstAttempt > RATE_LIMIT_WINDOW
    · rw [if_pos hw]
      simp [mapGet_mapSet_self, hw]
    · rw [if_neg hw]
      simp [mapGet_mapSet_self, hw]

/-- C6 (amended): for every call to decrypt that fails on the decryption
path — the input pre-checks pass, the key decodes to 32 bytes, the key is
not rate limited, and the try block fails — the uniform error is returned
and a failed attempt is recorded against the hash of the supplied key:
count 1 with a fresh window when the previous record was absent or
expired, otherwise the previous count plus one.  The original claim,
which covered every failing call, is refuted by c6_counterexample: the
input-validation failures record nothing. -/
theorem c6_record_on_failure (now : Int) (ct keyHex : List Char)
    (st : CryptoState)
    (hne : ct ≠ []) (hsz : utf8Len ct ≤ MAX_INPUT_SIZE * 2)
    (hkey : (hexDecode keyHex).length = KEY_LENGTH)
    (hrl : (isRateLimited now keyHex st).1 = false)
    (htry : decryptTry ct (hexDecode keyHex) = none) :
    (decrypt now ct keyHex st).1 = .error msgInvalidOrCorrupted ∧
    (decrypt now ct keyHex st).2 =
      recordFailedAttempt now keyHex (isRateLimited now keyHex st).2 ∧
    mapGet (decrypt now ct keyHex st).2.failedAttempts (sha256Hex keyHex) =
      some (match mapGet (isRateLimited now keyHex st).2.failedAttempts
              (sha256Hex keyHex) with
            | none => ⟨1, now⟩
            | some r =>
              if now - r.firstAttempt > RATE_LIMIT_WINDOW then ⟨1, now⟩
              else ⟨r.count + 1, r.firstAttempt⟩) := by
  have h1 : isValidString ct false = true := by simp [isValidString, hne]
  have h2 : isValidString keyHex false = true := by
    simp [isValidString, hexDecode_ne_nil_of_len hkey]
  rcases hpair : isRateLimited now keyHex st with ⟨b, st1⟩
  have hb : b = false := by rw [hpair] at hrl; exact hrl
  subst hb
  simp only [decrypt, h1, h2, not_true, if_false, hpair]
  rw [if_neg (by omega)]
  simp only [hkey, ne_eq, not_true_eq_false, if_false, htry]
  exact ⟨trivial, trivial, mapGet_recordFailedAttempt_self now keyHex st1⟩

/-- C6 witness: a concrete malformed envelope records a first failure. -/
theorem c6_record_on_failure_witness :
    (decrypt 0 (String.data "xx") keyA64 st0).1 =
      .error msgInvalidOrCorrupted ∧
    (decrypt 0 (String.data "xx") keyA64 st0).2 =
      recordFailedAttempt 0 keyA64 (isRateLimited 0 keyA64 st0).2 ∧
    mapGet (decrypt 0 (String.data "xx") keyA64 st0).2.failedAttempts
      (sha256Hex keyA64) =
      some (match mapGet (isRateLimited 0 keyA64 st0).2.failedAttempts
              (sha256Hex keyA64) with
            | none => ⟨1, 0⟩
            | some r =>
              if (0 : Int) - r.firstAttempt > RATE_LIMIT_WINDOW then ⟨1, 0⟩
              else ⟨r.count + 1, r.firstAttempt⟩) :=
  c6_record_on_failure 0 (String.data "xx") keyA64 st0 (by decide)
    (by decide) (by decide) (by decide) (by decide)

/-- C6 counterexample: the claim as stated is false for pre-check
failures.  A call with an empty cipher text fails (and not with the
rate-limit short circuit), yet the module state is returned unchanged: no
failed attempt is recorded for the hash of the supplied key. -/
theorem c6_counterexample :
    (decrypt 0 [] keyA64 st0).1 = .error msgCipherEmpty ∧
    (decrypt 0 [] keyA64 st0).1 ≠ .error msgRateLimited ∧
    (decrypt 0 [] keyA64 st0).2 = st0 ∧
    mapGet (decrypt 0 [] keyA64 st0).2.failedAttempts
      (sha256Hex keyA64) = none := by
  refine ⟨rfl, ?_, rfl, rfl⟩
  intro h
  exact absurd (Except.error.inj h) (by decide)

/-! ## Claim C4 -/

/-- C4 (amended): after 10 failures with the same wrong key inside one
60-second window, an 11th decrypt attempt within the window with that
same key fails with RateLimited; but the limiter gates on the hash of the
current attempt's key, so an 11th attempt made with the correct —
different — key is not rate limited and succeeds.  The original claim,
that even the correct key fails with RateLimited on the 11th attempt, is
refuted by c4_counterexample. -/
theorem c4_per_key_gating (tEnc now : Int) (iv : List Nat)
    (p keyW keyC : List Char) (st : CryptoState) (r : AttemptRecord)
    (e : List Char)
    (hkeyC : (hexDecode keyC).length = KEY_LENGTH)
    (hiv : iv.length = IV_LENGTH) (hiv256 : ∀ b ∈ iv, b < 256)
    (hplain : utf8Len p ≤ MAX_INPUT_SIZE)
    (henvsz : 127 + (intToString tEnc).length + 2 * utf8Len p ≤
      MAX_INPUT_SIZE * 2)
    (henc : encrypt tEnc iv p keyC = .ok e)
    (hkW : keyW ≠ [])
    (hrec : mapGet st.failedAttempts (sha256Hex keyW) = some r)
    (hcount : r.count ≥ MAX_FAILED_ATTEMPTS)
    (hwin : now - r.firstAttempt ≤ RATE_LIMIT_WINDOW)
    (hrlC : (isRateLimited now keyC st).1 = false) :
    (decrypt now e keyW st).1 = .error msgRateLimited ∧
    (decrypt now e keyC st).1 = .ok p := by
  rw [encrypt_eq tEnc iv p keyC hkeyC hplain] at henc
  obtain rfl : envelopeOf tEnc (hexDecode keyC) iv p = e :=
    Except.ok.inj henc
  have hsz : utf8Len (envelopeOf tEnc (hexDecode keyC) iv p) ≤
      MAX_INPUT_SIZE * 2 := by
    rw [envelopeOf_utf8Len tEnc (hexDecode keyC) p hiv]
    omega
  constructor
  · exact (decrypt_rateLimited now _ keyW st r (envelopeOf_ne_nil _ _ _ _)
      hsz hkW hrec hcount hwin).1
  · rw [decrypt_envelopeOf tEnc now iv p keyC st hkeyC hiv hiv256 hsz hrlC]

/-- C4 witness: the concrete scenario with both conclusions. -/
theorem c4_per_key_gating_witness :
    (decrypt 2050000 (envelopeOf 1000000 (hexDecode keyA64) iv0
      (String.data "hi")) keyB64 stRL).1 = .error msgRateLimited ∧
    (decrypt 2050000 (envelopeOf 1000000 (hexDecode keyA64) iv0
      (String.data "hi")) keyA64 stRL).1 = .ok (String.data "hi") :=
  c4_per_key_gating 1000000 2050000 iv0 (String.data "hi") keyB64 keyA64
    stRL ⟨10, 2000000⟩ _ (by decide) (by decide) (by decide) (by decide)
    (by decide) rfl (by decide) (by decide) (by decide) (by decide)
    (by decide)

/-- C4 counterexample: the claim as stated is false.  With 10 failures
recorded for the wrong key inside the current window, the 11th attempt
made with the correct (different) key does not fail with RateLimited — it
succeeds and returns the plaintext, because the limiter consults only the
hash of the current attempt's key. -/
theorem c4_counterexample :
    mapGet stRL.failedAttempts (sha256Hex keyB64) = some ⟨10, 2000000⟩ ∧
    ((2050000 : Int) - 2000000 ≤ RATE_LIMIT_WINDOW) ∧
    encrypt 1000000 iv0 (String.data "hi") keyA64 =
      .ok (envelopeOf 1000000 (hexDecode keyA64) iv0 (String.data "hi")) ∧
    (decrypt 2050000 (envelopeOf 1000000 (hexDecode keyA64) iv0
      (String.data "hi")) keyB64 stRL).1 = .error msgRateLimited ∧
    (decrypt 2050000 (envelopeOf 1000000 (hexDecode keyA64) iv0
      (String.data "hi")) keyA64 stRL).1 = .ok (String.data "hi") := by
  refine ⟨by decide, by decide, rfl, rfl, rfl⟩

/-! ## Claim C3 -/

/-- C3: evidence for the code bug.  On an input whose double-quoted value
is never closed, parse raises nothing: it silently consumes every
remaining line into the value, so the key OTHER after the malformed line
is lost from the result without any signal to the caller.  The claim (and
the repository's own SECURITY_FIXES.md and test suite, which expect an
error respectively a warning) says an UnclosedQuote error naming the key
must be raised. -/
theorem c3_unclosed_quote_swallows :
    parse (String.data "KEY=\"unclosed\nOTHER=value") =
      [(String.data "KEY", String.data "unclosed\nOTHER=value")] ∧
    ∀ v : List Char, (String.data "OTHER", v) ∉
      parse (String.data "KEY=\"unclosed\nOTHER=value") := by
  refine ⟨rfl, ?_⟩
  intro v hv
  rw [show parse (String.data "KEY=\"unclosed\nOTHER=value") =
    [(String.data "KEY", String.data "unclosed\nOTHER=value")] from rfl] at hv
  simp only [List.mem_singleton, Prod.mk.injEq] at hv
  exact absurd hv.1 (by decide)

/-! ## Claim C10 -/

/-- No entry of the mapping is keyed by the proto accessor name. -/
def protoFree (m : List (List Char × List Char)) : Prop :=
  ∀ v : List Char, (String.data "__proto__", v) ∉ m

theorem protoFree_nil : protoFree [] := by
  intro v hv
  simp at hv

theorem mem_assocSet_imp {m : List (List Char × List Char)}
    {k v : List Char} {e : List Char × List Char}
    (h : e ∈ assocSet m k v) : e ∈ m ∨ e.1 = k := by
  induction m with
  | nil =>
    simp only [assocSet, List.mem_singleton] at h
    exact Or.inr (by rw [h])
  | cons e0 rest ih =>
    obtain ⟨k0, v0⟩ := e0
    simp only [assocSet] at h
    by_cases hk0 : k0 = k
    · rw [if_pos hk0] at h
      rcases List.mem_cons.mp h with rfl | hmem
      · exact Or.inr hk0
      · exact Or.inl (List.mem_cons_of_mem _ hmem)
    · rw [if_neg hk0] at h
      rcases List.mem_cons.mp h with rfl | hmem
      · exact Or.inl (List.mem_cons_self _ _)
      · rcases ih hmem with h1 | h2
        · exact Or.inl (List.mem_cons_of_mem _ h1)
        · exact Or.inr h2

theorem protoFree_jsObjSet {m : List (List Char × List Char)}
    (h : protoFree m) (k w : List Char) : protoFree (jsObjSet m k w) := by
  by_cases hk : k = String.data "__proto__"
  · simpa [jsObjSet, hk] using h
  · intro v hv
    rw [jsObjSet, if_neg hk] at hv
    rcases mem_assocSet_imp hv with h1 | h2
    · exact h v h1
    · exact hk h2.symm

theorem protoFree_parseStep {s : PMode × List (List Char × List Char)}
    (h : protoFree s.2) (l : List Char) : protoFree (parseStep s l).2 := by
  obtain ⟨mode, m⟩ := s
  cases mode with
  | normal =>
    simp only [parseStep, processLine]
    split
    · exact h
    split
    · exact h
    split
    · exact h
    split
    · exact h
    split
    · exact protoFree_jsObjSet h _ _
    split
    · exact protoFree_jsObjSet h _ _
    split
    · split
      · exact protoFree_jsObjSet h _ _
      · exact h
    split
    · exact protoFree_jsObjSet h _ _
    · exact protoFree_jsObjSet h _ _
  | multi k acc =>
    simp only [parseStep, multiLineStep]
    split
    · exact protoFree_jsObjSet h _ _
    · exact h

theorem protoFree_foldl (lines : List (List Char))
    (s : PMode × List (List Char × List Char)) (h : protoFree s.2) :
    protoFree (lines.foldl parseStep s).2 := by
  induction lines generalizing s with
  | nil => exact h
  | cons l rest ih => exact ih _ (protoFree_parseStep h l)

/-- C10: the mapping returned by parse never contains an entry keyed by
the proto accessor name, because the plain-object assignment of a string
under that key is a no-op (the inherited prototype setter ignores
non-object values); in particular parsing a lone proto assignment line
yields the empty mapping, and the prototype of the result object is never
altered. -/
theorem c10_no_proto (content : List Char) :
    (∀ v : List Char, (String.data "__proto__", v) ∉ parse content) ∧
    parse (String.data "__proto__=x") = [] := by
  constructor
  · show protoFree (parse content)
    rw [parse]
    split
    · exact protoFree_nil
    · rcases hfold : (splitChar '\n' content).foldl parseStep (.normal, [])
        with ⟨mode, m⟩
      have hm : protoFree m := by
        have := protoFree_foldl (splitChar '\n' content) (.normal, [])
          protoFree_nil
        rw [hfold] at this
        exact this
      cases mode with
      | normal => exact hm
      | multi k acc => exact protoFree_jsObjSet hm _ _
  · rfl

/-- C10 witness: instantiation at a concrete input containing a proto
assignment among ordinary entries. -/
theorem c10_no_proto_witness :
    (∀ v : List Char, (String.data "__proto__", v) ∉
      parse (String.data "A=1\n__proto__=x\nB=2")) ∧
    parse (String.data "__proto__=x") = [] :=
  c10_no_proto (String.data "A=1\n__proto__=x\nB=2")

/-! ## Claim C7: the escape and unescape passes -/

/-- The per-character effect of the five escape passes of stringify. -/
def escChar (c : Char) : List Char :=
  if c = '\\' then ['\\', '\\']
  else if c = '"' then ['\\', '"']
  else if c = '\n' then ['\\', 'n']
  else if c = '\r' then ['\\', 'r']
  else if c = '\t' then ['\\', 't']
  else [c]

theorem replaceCharBy_append (a : Char) (out x y : List Char) :
    replaceCharBy a out (x ++ y) =
      replaceCharBy a out x ++ replaceCharBy a out y := by
  induction x with
  | nil => rfl
  | cons c rest ih => simp [replaceCharBy, ih]

/-- The five sequential passes act as one character-by-character map:
each pass replaces a single distinct character and no pass inserts a
character that a later pass targets adjacent to a target context. -/
theorem escapeValue_cons (c : Char) (v : List Char) :
    escapeValue (c :: v) = escChar c ++ escapeValue v := by
  by_cases h1 : c = '\\'
  · subst h1
    simp [escapeValue, escChar, replaceCharBy, replaceCharBy_append]
  by_cases h2 : c = '"'
  · subst h2
    simp [escapeValue, escChar, replaceCharBy, replaceCharBy_append, h1]
  by_cases h3 : c = '\n'
  · subst h3
    simp [escapeValue, escChar, replaceCharBy, replaceCharBy_append, h1, h2]
  by_cases h4 : c = '\r'
  · subst h4
    simp [escapeValue, escChar, replaceCharBy, replaceCharBy_append, h1, h2, h3]
  by_cases h5 : c = '\t'
  · subst h5
    simp [escapeValue, escChar, replaceCharBy, replaceCharBy_append, h1, h2,
      h3, h4]
  · simp [escapeValue, escChar, replaceCharBy, replaceCharBy_append, h1, h2,
      h3, h4, h5]

theorem replacePair_cons_ne (a b out x : Char) (l : List Char) (h : x ≠ a) :
    replacePair a b out (x :: l) = x :: replacePair a b out l := by
  cases l with
  | nil => rfl
  | cons y rest => simp [replacePair, h]

theorem replacePair_cons2_hit (a b out : Char) (l : List Char) :
    replacePair a b out (a :: b :: l) = out :: replacePair a b out l := by
  simp [replacePair]

theorem replacePair_cons2_miss (a b out x y : Char) (l : List Char)
    (h : ¬ (x = a ∧ y = b)) :
    replacePair a b out (x :: y :: l) = x :: replacePair a b out (y :: l) := by
  simp [replacePair, h]

/-- The five unescape passes exactly invert the five escape passes on any
value free of the null placeholder character. -/
theorem unescapeValue_escapeValue {v : List Char} (h : nulChar ∉ v) :
    unescapeValue (escapeValue v) = v := by
  induction v with
  | nil => rfl
  | cons c v ih =>
    have hc : c ≠ nulChar := fun hcc => h (by simp [hcc])
    have ih2 := ih (fun hm => h (by simp [hm]))
    rw [escapeValue_cons]
    simp only [unescapeValue] at ih2 ⊢
    by_cases h1 : c = '\\'
    · subst h1
      simp +decide only [escChar, ite_true, ite_false, List.cons_append,
        List.nil_append, replacePair_cons2_hit, replacePair_cons2_miss,
        replacePair_cons_ne, replaceCharBy, ih2]
    by_cases h2 : c = '"'
    · subst h2
      simp +decide only [escChar, ite_true, ite_false, List.cons_append,
        List.nil_append, replacePair_cons2_hit, replacePair_cons2_miss,
        replacePair_cons_ne, replaceCharBy, ih2]
    by_cases h3 : c = '\n'
    · subst h3
      simp +decide only [escChar, ite_true, ite_false, List.cons_append,
        List.nil_append, replacePair_cons2_hit, replacePair_cons2_miss,
        replacePair_cons_ne, replaceCharBy, ih2]
    by_cases h4 : c = '\r'
    · subst h4
      simp +decide only [escChar, ite_true, ite_false, List.cons_append,
        List.nil_append, replacePair_cons2_hit, replacePair_cons2_miss,
        replacePair_cons_ne, replaceCharBy, ih2]
    by_cases h5 : c = '\t'
    · subst h5
      simp +decide only [escChar, ite_true, ite_false, List.cons_append,
        List.nil_append, replacePair_cons2_hit, replacePair_cons2_miss,
        replacePair_cons_ne, replaceCharBy, ih2]
    · have he : escChar c = [c] := by
        simp [escChar, h1, h2, h3, h4, h5]
      rw [he, List.cons_append, List.nil_append,
        replacePair_cons_ne _ _ _ _ _ h1,
        replacePair_cons_ne _ _ _ _ _ h1,
        replacePair_cons_ne _ _ _ _ _ h1,
        replacePair_cons_ne _ _ _ _ _ h1,
        replacePair_cons_ne _ _ _ _ _ h1]
      simp only [replaceCharBy, if_neg hc, ih2]
      rfl

/-! ## Claim C7: keys, values and trimming -/

/-- The leading character of an identifier-like key: a letter or an
underscore. -/
def isIdentHeadChar (c : Char) : Bool :=
  (65 ≤ c.toNat && c.toNat ≤ 90) || (97 ≤ c.toNat && c.toNat ≤ 122) ||
  c.toNat = 95

/-- A character of an identifier-like key: a letter, a digit or an
underscore. -/
def isIdentChar (c : Char) : Bool :=
  isIdentHeadChar c || (48 ≤ c.toNat && c.toNat ≤ 57)

/-- An identifier-like non-empty key. -/
def goodKey (k : List Char) : Bool :=
  match k with
  | [] => false
  | c :: rest => isIdentHeadChar c && rest.all isIdentChar

/-- The first character, if any, is not JavaScript whitespace. -/
def headNotWs (v : List Char) : Bool :=
  match v.head? with
  | some c => !jsWhitespace c
  | none => true

/-- The last character, if any, is not JavaScript whitespace. -/
def lastNotWs (v : List Char) : Bool :=
  match v.getLast? with
  | some c => !jsWhitespace c
  | none => true

/-- The value both starts and ends with a single quote and has length at
least two, so the parser would strip those quotes. -/
def singleQuoteWrapped (v : List Char) : Bool :=
  decide (2 ≤ v.length) && decide (v.head? = some '\'') &&
  decide (v.getLast? = some '\'')

/-- A value that survives the bare (unquoted) serialization: no
whitespace at either end and not single-quote wrapped. -/
def goodBareValue (v : List Char) : Bool :=
  headNotWs v && lastNotWs v && !singleQuoteWrapped v

/-- A value the round trip preserves: free of the null placeholder, and
either quoted by stringify or safe to emit bare. -/
def goodValue (v : List Char) : Bool :=
  !v.contains nulChar && (needsQuotes v || goodBareValue v)

theorem isIdentChar_facts {c : Char} (h : isIdentChar c = true) :
    jsWhitespace c = false ∧ c ≠ '=' ∧ c ≠ '#' ∧ c ≠ '\n' ∧ c ≠ '"' ∧
    c ≠ '\'' := by
  simp only [isIdentChar, isIdentHeadChar, Bool.or_eq_true, Bool.and_eq_true,
    decide_eq_true_eq] at h
  refine ⟨?_, ?_, ?_, ?_, ?_, ?_⟩
  · by_contra hw
    rw [Bool.not_eq_false] at hw
    simp only [jsWhitespace, Bool.or_eq_true, Bool.and_eq_true,
      decide_eq_true_eq] at hw
    omega
  all_goals (rintro rfl; revert h; decide)

theorem goodKey_facts {k : List Char} (h : goodKey k = true) :
    k ≠ [] ∧ (∀ c ∈ k, isIdentChar c = true) := by
  cases k with
  | nil => simp [goodKey] at h
  | cons c rest =>
    simp only [goodKey, Bool.and_eq_true, List.all_eq_true] at h
    refine ⟨by simp, ?_⟩
    intro x hx
    rcases List.mem_cons.mp hx with rfl | hx
    · simp [isIdentChar, h.1]
    · exact h.2 x hx

/-! ## Claim C7: trimming lemmas -/

theorem dropWhile_eq_self_of_head {p : Char → Bool} {l : List Char}
    (h : ∀ c, l.head? = some c → p c = false) : l.dropWhile p = l := by
  cases l with
  | nil => rfl
  | cons c rest => simp [List.dropWhile, h c rfl]

theorem jsTrimEnd_eq_self {l : List Char}
    (h : ∀ c, l.getLast? = some c → jsWhitespace c = false) :
    jsTrimEnd l = l := by
  rw [jsTrimEnd, dropWhile_eq_self_of_head, List.reverse_reverse]
  intro c hc
  rw [List.head?_reverse] at hc
  exact h c hc

theorem jsTrim_eq_self {l : List Char}
    (hh : ∀ c, l.head? = some c → jsWhitespace c = false)
    (hl : ∀ c, l.getLast? = some c → jsWhitespace c = false) :
    jsTrim l = l := by
  rw [jsTrim, dropWhile_eq_self_of_head hh, jsTrimEnd_eq_self hl]

/-! ## Claim C7: index and substring lemmas -/

theorem indexOfChar_append_sep {k : List Char} {c : Char}
    (h : ∀ x ∈ k, x ≠ c) (rest : List Char) :
    indexOfChar (k ++ c :: rest) c = some k.length := by
  induction k with
  | nil => simp [indexOfChar]
  | cons x xs ih =>
    have hx : x ≠ c := h x (by simp)
    have hih := ih (fun y hy => h y (by simp [hy]))
    simp only [List.cons_append, indexOfChar, hx, if_false, reduceIte]
    rw [show xs.append (c :: rest) = xs ++ c :: rest from rfl, hih]
    rfl

theorem indexOfChar_eq_none {l : List Char} {c : Char}
    (h : ∀ x ∈ l, x ≠ c) : indexOfChar l c = none := by
  induction l with
  | nil => rfl
  | cons x xs ih =>
    have hx : x ≠ c := h x (by simp)
    simp [indexOfChar, hx, ih (fun y hy => h y (by simp [hy]))]

theorem jsSubstring_zero (l : List Char) (n : Nat) :
    jsSubstring l 0 n = l.take n := by
  simp [jsSubstring]

theorem jsSubstring_to_end (l : List Char) (a : Nat) (h : a ≤ l.length) :
    jsSubstring l a l.length = l.drop a := by
  simp [jsSubstring, Nat.max_eq_right h, Nat.min_eq_left h]

theorem needsQuotes_false_facts {v : List Char} (h : needsQuotes v = false) :
    ('\n' ∉ v) ∧ ('"' ∉ v) ∧ ('#' ∉ v) := by
  simp only [needsQuotes, Bool.or_eq_false_iff] at h
  obtain ⟨⟨⟨⟨⟨⟨h1, _⟩, _⟩, h4⟩, _⟩, h6⟩, _⟩ := h
  refine ⟨?_, ?_, ?_⟩ <;> intro hm
  · simp only [List.contains, List.elem_eq_mem, decide_eq_false_iff_not] at h1
    exact h1 hm
  · simp only [List.contains, List.elem_eq_mem, decide_eq_false_iff_not] at h4
    exact h4 hm
  · simp only [List.contains, List.elem_eq_mem, decide_eq_false_iff_not] at h6
    exact h6 hm

/-- A character of the escaped form of a value is never a newline. -/
theorem escapeValue_no_newline (v : List Char) : '\n' ∉ escapeValue v := by
  induction v with
  | nil => simp [escapeValue, replaceCharBy]
  | cons c rest ih =>
    rw [escapeValue_cons]
    intro hm
    rcases List.mem_append.mp hm with hm | hm
    · revert hm
      simp only [escChar]
      split
      · decide
      split
      · decide
      split
      · decide
      split
      · decide
      split
      · decide
      · rename_i h1 h2 h3 h4 h5
        simp only [List.mem_singleton]
        intro hc
        exact h3 hc.symm
    · exact ih hm

/-- The full single-entry-line lemma: parsing one serialized entry line
in the normal state assigns exactly that key and value. -/
theorem processLine_entry (m : List (List Char × List Char)) (k v : List Char)
    (hk : goodKey k = true) (hv : goodValue v = true) :
    processLine m (stringifyEntry k v) = (.normal, jsObjSet m k v) := by
  obtain ⟨hkne, hkch⟩ := goodKey_facts hk
  obtain ⟨kc, krest, rfl⟩ : ∃ kc krest, k = kc :: krest := by
    cases k with
    | nil => exact absurd rfl hkne
    | cons a b => exact ⟨a, b, rfl⟩
  have hkws : ∀ c ∈ kc :: krest, jsWhitespace c = false := fun c hc =>
    (isIdentChar_facts (hkch c hc)).1
  have hkeq : ∀ c ∈ kc :: krest, c ≠ '=' := fun c hc =>
    (isIdentChar_facts (hkch c hc)).2.1
  have hkhash : kc ≠ '#' := (isIdentChar_facts (hkch kc (by simp))).2.2.1
  have hktrim : jsTrim (kc :: krest) = kc :: krest := by
    apply jsTrim_eq_self
    · intro c hc
      exact hkws c (List.mem_of_mem_head? hc)
    · intro c hc
      exact hkws c (List.mem_of_getLast?_eq_some hc)
  simp only [goodValue, Bool.and_eq_true, Bool.or_eq_true,
    Bool.not_eq_true'] at hv
  obtain ⟨hnul, hqb⟩ := hv
  have hnulmem : nulChar ∉ v := by
    simp only [List.contains, List.elem_eq_mem, decide_eq_false_iff_not] at hnul
    exact hnul
  by_cases hq : needsQuotes v = true
  · -- quoted emission
    have hline : stringifyEntry (kc :: krest) v =
        (kc :: krest) ++ '=' :: ('"' :: (escapeValue v ++ ['"'])) := by
      simp [stringifyEntry, hq]
    have hlast : ((kc :: krest) ++ '=' :: ('"' :: (escapeValue v ++
        ['"']))).getLast? = some '"' := by
      rw [show (kc :: krest) ++ '=' :: ('"' :: (escapeValue v ++ ['"'])) =
        ((kc :: krest) ++ '=' :: '"' :: escapeValue v) ++ ['"'] from by simp,
        List.getLast?_concat]
    have hlineTrim : jsTrim ((kc :: krest) ++ '=' ::
        ('"' :: (escapeValue v ++ ['"']))) =
        (kc :: krest) ++ '=' :: ('"' :: (escapeValue v ++ ['"'])) := by
      apply jsTrim_eq_self
      · intro c hc
        simp only [List.cons_append, List.head?_cons, Option.some.injEq] at hc
        exact hc ▸ hkws kc (by simp)
      · intro c hc
        rw [hlast] at hc
        obtain rfl := Option.some.inj hc
        decide
    have hvaltrim : jsTrim ('"' :: (escapeValue v ++ ['"'])) =
        '"' :: (escapeValue v ++ ['"']) := by
      apply jsTrim_eq_self
      · intro c hc
        obtain rfl := Option.some.inj hc
        decide
      · intro c hc
        rw [show ('"' :: (escapeValue v ++ ['"'])) =
          ('"' :: escapeValue v) ++ ['"'] from by simp,
          List.getLast?_concat] at hc
        obtain rfl := Option.some.inj hc
        decide
    rw [hline]
    simp only [processLine, hlineTrim]
    rw [if_neg (by simp), if_neg (by
      simp only [List.cons_append, listStartsWith, Bool.and_eq_true,
        decide_eq_true_eq]
      rintro ⟨rfl, -⟩
      exact hkhash rfl)]
    rw [indexOfChar_append_sep hkeq]
    dsimp only
    rw [jsSubstring_zero, List.take_left, hktrim]
    have hveq : jsSubstring ((kc :: krest) ++ '=' ::
        ('"' :: (escapeValue v ++ ['"']))) ((kc :: krest).length + 1)
        ((kc :: krest) ++ '=' :: ('"' :: (escapeValue v ++ ['"']))).length =
        '"' :: (escapeValue v ++ ['"']) := by
      rw [jsSubstring_to_end _ _ (by simp)]
      rw [show (kc :: krest) ++ '=' :: ('"' :: (escapeValue v ++ ['"'])) =
        ((kc :: krest) ++ ['=']) ++ ('"' :: (escapeValue v ++ ['"'])) from
        by simp]
      exact List.drop_left' (by simp)
    rw [hveq, hvaltrim]
    rw [if_neg (show ¬ (kc :: krest = []) by simp)]
    dsimp only
    rw [if_neg (by
      rintro ⟨h, -⟩
      exact absurd h (by decide))]
    rw [if_pos rfl]
    rw [if_pos (by
      constructor
      · rw [show ('"' :: (escapeValue v ++ ['"'])) =
          ('"' :: escapeValue v) ++ ['"'] from by simp, List.getLast?_concat]
      · simp)]
    have hsub : jsSubstring ('"' :: (escapeValue v ++ ['"'])) 1
        (('"' :: (escapeValue v ++ ['"'])).length - 1) = escapeValue v := by
      have hlen : ('"' :: (escapeValue v ++ ['"'])).length - 1 =
          (escapeValue v).length + 1 := by simp
      rw [hlen, jsSubstring]
      rw [Nat.max_eq_right (by omega), Nat.min_eq_left (by omega)]
      rw [show ('"' :: (escapeValue v ++ ['"'])) =
        ('"' :: escapeValue v) ++ ['"'] from by simp]
      rw [List.take_left' (by simp)]
      rfl
    rw [hsub, unescapeValue_escapeValue hnulmem]
  · -- bare emission
    have hnq : needsQuotes v = false := by rwa [Bool.not_eq_true] at hq
    have hb : goodBareValue v = true := by
      rcases hqb with h | h
      · exact absurd h hq
      · exact h
    obtain ⟨hnlv, hndq, hnh⟩ := needsQuotes_false_facts hnq
    simp only [goodBareValue, Bool.and_eq_true, Bool.not_eq_true'] at hb
    obtain ⟨⟨hbh, hbl⟩, hbq⟩ := hb
    have hvh : ∀ c, v.head? = some c → jsWhitespace c = false := by
      intro c hc
      rw [headNotWs, hc] at hbh
      simpa using hbh
    have hvl : ∀ c, v.getLast? = some c → jsWhitespace c = false := by
      intro c hc
      rw [lastNotWs, hc] at hbl
      simpa using hbl
    have hline : stringifyEntry (kc :: krest) v =
        (kc :: krest) ++ '=' :: v := by
      simp [stringifyEntry, hnq]
    have hlineTrim : jsTrim ((kc :: krest) ++ '=' :: v) =
        (kc :: krest) ++ '=' :: v := by
      apply jsTrim_eq_self
      · intro c hc
        simp only [List.cons_append, List.head?_cons, Option.some.injEq] at hc
        exact hc ▸ hkws kc (by simp)
      · intro c hc
        rw [List.getLast?_append_of_ne_nil _ (by simp)] at hc
        cases v with
        | nil =>
          simp only [List.getLast?_singleton, Option.some.injEq] at hc
          obtain rfl := hc
          decide
        | cons x xs =>
          rw [List.getLast?_cons_cons] at hc
          exact hvl c hc
    have hvtrim : jsTrim v = v := jsTrim_eq_self hvh hvl
    rw [hline]
    simp only [processLine, hlineTrim]
    rw [if_neg (by simp), if_neg (by
      simp only [List.cons_append, listStartsWith, Bool.and_eq_true,
        decide_eq_true_eq]
      rintro ⟨rfl, -⟩
      exact hkhash rfl)]
    rw [indexOfChar_append_sep hkeq]
    dsimp only
    rw [jsSubstring_zero, List.take_left, hktrim]
    have hveq : jsSubstring ((kc :: krest) ++ '=' :: v)
        ((kc :: krest).length + 1) ((kc :: krest) ++ '=' :: v).length = v := by
      rw [jsSubstring_to_end _ _ (by simp)]
      rw [show (kc :: krest) ++ '=' :: v = ((kc :: krest) ++ ['=']) ++ v from
        by simp]
      exact List.drop_left' (by simp)
    rw [hveq, hvtrim]
    rw [if_neg (show ¬ (kc :: krest = []) by simp)]
    cases v with
    | nil => rfl
    | cons c rest =>
      dsimp only
      by_cases hsq : c = '\'' ∧ (c :: rest).getLast? = some '\''
      · have hlen2 : ¬ (2 ≤ (c :: rest).length) := by
          intro hl
          have : singleQuoteWrapped (c :: rest) = true := by
            simp only [singleQuoteWrapped, Bool.and_eq_true, decide_eq_true_eq]
            exact ⟨⟨hl, by simp [hsq.1]⟩, hsq.2⟩
          rw [this] at hbq
          cases hbq
        obtain rfl : rest = [] := by
          cases rest with
          | nil => rfl
          | cons y ys => exact absurd (by simp) hlen2
        rw [if_pos hsq]
        obtain rfl : c = '\'' := hsq.1
        rfl
      · rw [if_neg hsq]
        have hcdq : c ≠ '"' := by
          intro hcc
          refine hndq ?_
          rw [← hcc]
          exact List.mem_cons_self c rest
        rw [if_neg hcdq]
        rw [indexOfChar_eq_none (fun x hx hxx => hnh (by
          rw [← hxx]
          exact hx))]

/-! ## Claim C7: line assembly -/

theorem stringifyEntry_no_newline {k v : List Char} (hk : goodKey k = true)
    (_hv : goodValue v = true) : '\n' ∉ stringifyEntry k v := by
  obtain ⟨-, hkch⟩ := goodKey_facts hk
  intro hm
  rw [stringifyEntry] at hm
  by_cases hq : needsQuotes v = true
  · rw [if_pos hq] at hm
    rcases List.mem_append.mp hm with h | h
    · exact absurd rfl (isIdentChar_facts (hkch _ h)).2.2.2.1.symm
    · rcases List.mem_cons.mp h with h2 | h2
      · exact absurd h2.symm (by decide)
      · rcases List.mem_cons.mp h2 with h3 | h3
        · exact absurd h3.symm (by decide)
        · rcases List.mem_append.mp h3 with h4 | h4
          · exact escapeValue_no_newline v h4
          · simp only [List.mem_singleton] at h4
            exact absurd h4.symm (by decide)
  · rw [if_neg hq] at hm
    have hnq : needsQuotes v = false := by
      cases h : needsQuotes v
      · rfl
      · exact absurd h hq
    rcases List.mem_append.mp hm with h | h
    · exact absurd rfl (isIdentChar_facts (hkch _ h)).2.2.2.1.symm
    · rcases List.mem_cons.mp h with h2 | h2
      · exact absurd h2.symm (by decide)
      · exact (needsQuotes_false_facts hnq).1 h2

theorem splitChar_joinChar (sep : Char) (ls : List (List Char)) (h : ls ≠ [])
    (hno : ∀ l ∈ ls, sep ∉ l) : splitChar sep (joinChar sep ls) = ls := by
  induction ls with
  | nil => exact absurd rfl h
  | cons l rest ih =>
    cases rest with
    | nil => simp [joinChar, splitChar_no_sep (hno l (by simp))]
    | cons l2 rest2 =>
      rw [joinChar_cons _ _ _ (by simp),
        splitChar_append_sep (hno l (by simp)),
        ih (by simp) (fun x hx => hno x (by simp [hx]))]

theorem stringifyLines_eq_map {m : List (List Char × List Char)}
    (h : ∀ e ∈ m, goodKey e.1 = true) :
    stringifyLines m = m.map (fun e => stringifyEntry e.1 e.2) := by
  induction m with
  | nil => rfl
  | cons e rest ih =>
    obtain ⟨k, v⟩ := e
    have hkne : k ≠ [] := (goodKey_facts (h (k, v) (by simp))).1
    simp only [stringifyLines, hkne, if_false, reduceIte, List.map_cons]
    rw [ih (fun x hx => h x (by simp [hx]))]

theorem foldl_parseStep_entries (m : List (List Char × List Char))
    (acc : List (List Char × List Char))
    (hk : ∀ e ∈ m, goodKey e.1 = true) (hv : ∀ e ∈ m, goodValue e.2 = true) :
    (m.map (fun e => stringifyEntry e.1 e.2)).foldl parseStep (.normal, acc) =
      (.normal, m.foldl (fun a e => jsObjSet a e.1 e.2) acc) := by
  induction m generalizing acc with
  | nil => rfl
  | cons e rest ih =>
    obtain ⟨k, v⟩ := e
    simp only [List.map_cons, List.foldl_cons]
    have hk1 : goodKey k = true := hk (k, v) (by simp)
    have hv1 : goodValue v = true := hv (k, v) (by simp)
    rw [show parseStep (.normal, acc) (stringifyEntry k v) =
      (.normal, jsObjSet acc k v) from processLine_entry acc k v hk1 hv1]
    exact ih _ (fun x hx => hk x (by simp [hx]))
      (fun x hx => hv x (by simp [hx]))

theorem assocSet_append_fresh {acc : List (List Char × List Char)}
    {k : List Char} (v : List Char) (hfresh : k ∉ acc.map Prod.fst) :
    assocSet acc k v = acc ++ [(k, v)] := by
  induction acc with
  | nil => rfl
  | cons e rest ih =>
    obtain ⟨k0, v0⟩ := e
    have hk0 : k0 ≠ k := by
      intro hk0
      exact hfresh (by simp [hk0])
    simp only [assocSet, hk0, if_false, reduceIte, List.cons_append]
    rw [ih (fun hm => hfresh (by simp [hm]))]

theorem jsObjSet_append_fresh {acc : List (List Char × List Char)}
    {k : List Char} (v : List Char) (hproto : k ≠ String.data "__proto__")
    (hfresh : k ∉ acc.map Prod.fst) : jsObjSet acc k v = acc ++ [(k, v)] := by
  rw [jsObjSet, if_neg hproto, assocSet_append_fresh v hfresh]

theorem foldl_jsObjSet_fresh (m acc : List (List Char × List Char))
    (hproto : ∀ e ∈ m, e.1 ≠ String.data "__proto__")
    (hnodup : (m.map Prod.fst).Nodup)
    (hdisj : ∀ e ∈ m, e.1 ∉ acc.map Prod.fst) :
    m.foldl (fun a e => jsObjSet a e.1 e.2) acc = acc ++ m := by
  induction m generalizing acc with
  | nil => simp
  | cons e rest ih =>
    obtain ⟨k, v⟩ := e
    simp only [List.map_cons, List.nodup_cons] at hnodup
    simp only [List.foldl_cons]
    have h1 : k ≠ String.data "__proto__" := hproto (k, v) (by simp)
    have h2 : k ∉ acc.map Prod.fst := hdisj (k, v) (by simp)
    rw [jsObjSet_append_fresh v h1 h2]
    rw [ih _ (fun x hx => hproto x (by simp [hx])) hnodup.2 ?_]
    · simp
    · intro x hx
      simp only [List.map_append, List.mem_append, List.map_cons,
        List.map_nil, List.mem_singleton, not_or]
      refine ⟨hdisj x (by simp [hx]), ?_⟩
      intro hxk
      exact hnodup.1 (hxk ▸ List.mem_map_of_mem Prod.fst hx)

theorem joinChar_ne_nil (sep : Char) (l : List Char) (ls : List (List Char))
    (h : l ≠ []) : joinChar sep (l :: ls) ≠ [] := by
  cases ls with
  | nil => exact h
  | cons l2 rest =>
    rw [joinChar_cons _ _ _ (by simp)]
    intro hnil
    rcases List.append_eq_nil.mp hnil with ⟨-, h2⟩
    cases h2

/-- C7 (amended): parse(stringify(m)) = m for every mapping m whose keys
are identifier-like (a letter or underscore followed by letters, digits
or underscores), distinct, and different from the proto accessor name,
and whose values contain no null character and, when they contain none of
the characters that force quoting (newline, carriage return, tab, double
quote, backslash, hash, space), neither start nor end with JavaScript
whitespace and are not wrapped in single quotes.  The original claim over
arbitrary string values is refuted by c7_counterexample: a bare value
that is single-quote wrapped is emitted unquoted and the parser strips
the quotes. -/
theorem c7_stringify_roundtrip (m : List (List Char × List Char))
    (hnodup : (m.map Prod.fst).Nodup)
    (hkeys : ∀ e ∈ m, goodKey e.1 = true ∧ e.1 ≠ String.data "__proto__")
    (hvals : ∀ e ∈ m, goodValue e.2 = true) :
    parse (stringify m) = m := by
  cases m with
  | nil => rfl
  | cons e rest =>
    obtain ⟨k, v⟩ := e
    have hgoodk : ∀ x ∈ (k, v) :: rest, goodKey x.1 = true := fun x hx =>
      (hkeys x hx).1
    have hlines : stringify ((k, v) :: rest) = joinChar '\n'
        ((((k, v) :: rest)).map (fun x => stringifyEntry x.1 x.2)) := by
      rw [stringify, stringifyLines_eq_map hgoodk]
    have hne : stringify ((k, v) :: rest) ≠ [] := by
      rw [hlines, List.map_cons]
      refine joinChar_ne_nil _ _ _ ?_
      have := (goodKey_facts (hgoodk (k, v) (by simp))).1
      rw [stringifyEntry]
      split <;> (cases k with
        | nil => exact absurd rfl this
        | cons a b => simp)
    rw [parse, if_neg hne, hlines]
    rw [splitChar_joinChar '\n' _ (by simp) ?_]
    · rw [foldl_parseStep_entries _ _ hgoodk hvals]
      rw [foldl_jsObjSet_fresh _ [] (fun x hx => (hkeys x hx).2) hnodup
        (by simp)]
      simp
    · intro l hl
      rcases List.mem_map.mp hl with ⟨x, hx, rfl⟩
      exact stringifyEntry_no_newline (hgoodk x hx) (hvals x hx)

/-- C7 counterexample: the claim as stated is false for the value
consisting of a single-quoted word.  The value contains no character that
forces quoting, so stringify emits it bare, and parse then strips the
single quotes: the pair comes back changed. -/
theorem c7_counterexample :
    parse (stringify [(String.data "K", String.data "'a'")]) =
      [(String.data "K", String.data "a")] ∧
    parse (stringify [(String.data "K", String.data "'a'")]) ≠
      [(String.data "K", String.data "'a'")] := by
  refine ⟨rfl, ?_⟩
  intro h
  rw [show parse (stringify [(String.data "K", String.data "'a'")]) =
    [(String.data "K", String.data "a")] from rfl] at h
  simp only [List.cons.injEq, Prod.mk.injEq] at h
  exact absurd h.1.2 (by decide)

/-- C7 witness: a concrete two-entry mapping whose second value contains
a space, newline, double quote, backslash and hash round-trips exactly. -/
theorem c7_stringify_roundtrip_witness :
    parse (stringify [(String.data "A", String.data "x"),
      (String.data "B", String.data "a b\nc\"d\\e#f")]) =
      [(String.data "A", String.data "x"),
       (String.data "B", String.data "a b\nc\"d\\e#f")] :=
  c7_stringify_roundtrip _ (by decide) (by decide) (by decide)

end EnvLock
